import Mathlib

set_option maxHeartbeats 1000000
set_option linter.unusedVariables false

namespace BertEmb

/-!
Shallow embedding of `src/models/bert_emb.py`: a numpy implementation of a
BERT-style encoder forward pass.  Dense 2-D arrays are modelled as lists of
rows over `ℝ`; 1-D arrays as lists of `ℝ`.  numpy operations that can raise
(fancy indexing out of range, `np.split` with a non-divisible axis, missing
checkpoint keys) are modelled with `Option`/`Except`.  Total numpy
operations are modelled as total functions; note that in Lean `x / 0 = 0`
where numpy float division by zero yields `inf`/`nan` (no exception in
either semantics).
-/

abbrev Vec := List ℝ
abbrev Mat := List (List ℝ)

/-- Width (number of columns) of a matrix, read off its first row.
A rectangular numpy 2-D array has every row of this length. -/
def width (m : Mat) : ℕ := (m.headD []).length

/-- Transpose of a rectangular matrix: column `j` collects entry `j` of
every row. -/
def transposeM (m : Mat) : Mat :=
  (List.range (width m)).map (fun j => m.map (fun r => r.getD j 0))

def dot (u v : Vec) : ℝ := (List.zipWith (fun a b => a * b) u v).sum

/-- Matrix product `a @ b`: entry `(i, j)` is the dot product of row `i`
of `a` with column `j` of `b`. -/
def matmul (a b : Mat) : Mat :=
  a.map (fun r => (transposeM b).map (fun c => dot r c))

def addVec (u v : Vec) : Vec := List.zipWith (fun a b => a + b) u v

/-- Elementwise sum of two matrices. -/
def addM (a b : Mat) : Mat := List.zipWith addVec a b

/-- Add a bias row vector to every row (numpy broadcasting over the
leading axis). -/
def addBias (a : Mat) (b : Vec) : Mat := a.map (fun r => addVec r b)

/-- Source `linear(x, w, b) = x @ w + b`. -/
def linear (x : Mat) (w : Mat) (b : Vec) : Mat := addBias (matmul x w) b

/-- Source `gelu`, scalar form:
`0.5 * x * (1 + tanh(sqrt(2/pi) * (x + 0.044715 * x**3)))`. -/
noncomputable def geluScalar (x : ℝ) : ℝ :=
  0.5 * x * (1 + Real.tanh (Real.sqrt (2 / Real.pi) * (x + 0.044715 * x ^ 3)))

/-- Source `gelu`, applied elementwise to a matrix. -/
noncomputable def gelu (x : Mat) : Mat := x.map (fun r => r.map geluScalar)

/-- Source `relu(x) = np.maximum(0, x)` (defined in the source, unused). -/
noncomputable def relu (x : Mat) : Mat := x.map (fun r => r.map (fun a => max 0 a))

/-- Row maximum, the per-row `np.max(x, axis=-1, keepdims=True)` of a
nonempty row. -/
noncomputable def rowMax (r : Vec) : ℝ := r.foldl max (r.headD 0)

/-- Source `softmax` on one row: subtract the row maximum, exponentiate,
normalize by the row sum. -/
noncomputable def softmaxRow (r : Vec) : Vec :=
  let e := r.map (fun v => Real.exp (v - rowMax r))
  e.map (fun v => v / e.sum)

/-- Source `softmax(x)` along the last axis of a 2-D array. -/
noncomputable def softmax (x : Mat) : Mat := x.map softmaxRow

/-- The fixed epsilon of the source `layer_norm` (`eps=1e-12`, every call
site uses the default). -/
noncomputable def lnEps : ℝ := 1e-12

def zipWith3 {α β γ δ : Type _} (f : α → β → γ → δ) :
    List α → List β → List γ → List δ
  | a :: as, b :: bs, c :: cs => f a b c :: zipWith3 f as bs cs
  | _, _, _ => []

/-- Source `layer_norm` on one row: subtract the mean, divide by
`sqrt(variance + eps)`, scale by `g`, shift by `b` (all per last-axis
slice, `g` and `b` broadcast over rows). -/
noncomputable def layerNormRow (r : Vec) (g b : Vec) : Vec :=
  let mean := r.sum / (r.length : ℝ)
  let variance := (r.map (fun a => (a - mean) ^ 2)).sum / (r.length : ℝ)
  zipWith3 (fun gi xi bi => gi * (xi - mean) / Real.sqrt (variance + lnEps) + bi) g r b

/-- Source `layer_norm(x, g, b, eps=1e-12)` on a 2-D array. -/
noncomputable def layer_norm (x : Mat) (g b : Vec) : Mat :=
  x.map (fun r => layerNormRow r g b)

/-- Elementwise division of a matrix by a scalar. -/
noncomputable def divM (m : Mat) (s : ℝ) : Mat := m.map (fun r => r.map (fun a => a / s))

structure LinearParams where
  w : Mat
  b : Vec

structure LayerNormParams where
  g : Vec
  b : Vec

structure AttnParams where
  c_attn : LinearParams
  c_proj : LinearParams

structure MlpParams where
  c_fc : LinearParams
  c_proj : LinearParams

structure BlockParams where
  mlp : MlpParams
  attn : AttnParams
  ln_1 : LayerNormParams
  ln_2 : LayerNormParams

/-- Source `ffn(x, c_fc, c_proj) = linear(gelu(linear(x, **c_fc)), **c_proj)`. -/
noncomputable def ffn (x : Mat) (c_fc c_proj : LinearParams) : Mat :=
  linear (gelu (linear x c_fc.w c_fc.b)) c_proj.w c_proj.b

/-- Source `attention(q, k, v) = softmax(q @ k.T / np.sqrt(q.shape[-1])) @ v`.
No mask of any kind is applied: the softmax is taken over the full
`seq_len x seq_len` score matrix. -/
noncomputable def attention (q k v : Mat) : Mat :=
  matmul (softmax (divM (matmul q (transposeM k)) (Real.sqrt (width q)))) v

/-- `np.split(x, n, axis=-1)`: split the columns into `n` equal chunks;
raises (here: `none`) when `n = 0` or the width is not divisible by `n`. -/
def npSplitCols (x : Mat) (n : ℕ) : Option (List Mat) :=
  if n ≠ 0 ∧ n ∣ width x then
    some ((List.range n).map
      (fun j => x.map (fun r => (r.drop (j * (width x / n))).take (width x / n))))
  else none

/-- `np.hstack` on two 2-D arrays: concatenate the rows pairwise. -/
def hstack2 (a b : Mat) : Mat := List.zipWith (fun r s => r ++ s) a b

/-- `np.hstack` on a sequence of 2-D arrays. -/
def hstack : List Mat → Mat
  | [] => []
  | m :: ms => ms.foldl hstack2 m

/-- Source `mha(x, c_attn, c_proj, n_head)`: fused qkv projection, split
into Q, K, V, split each into `n_head` chunks, per-head `attention`,
concatenate, output projection. -/
noncomputable def mha (x : Mat) (c_attn c_proj : LinearParams) (n_head : ℕ) :
    Option Mat := do
  let x1 := linear x c_attn.w c_attn.b
  let qkv ← npSplitCols x1 3
  let qkvHeads ← qkv.mapM (fun p => npSplitCols p n_head)
  let outHeads := zipWith3 attention (qkvHeads.getD 0 []) (qkvHeads.getD 1 [])
    (qkvHeads.getD 2 [])
  pure (linear (hstack outHeads) c_proj.w c_proj.b)

/-- Source `transformer_block(x, mlp, attn, ln_1, ln_2, n_head)`:
`x = layer_norm(x + mha(x), ln_1); x = layer_norm(x + ffn(x), ln_2)`. -/
noncomputable def transformer_block (x : Mat) (mlp : MlpParams) (attn : AttnParams)
    (ln_1 ln_2 : LayerNormParams) (n_head : ℕ) : Option Mat := do
  let a ← mha x attn.c_attn attn.c_proj n_head
  let x1 := layer_norm (addM x a) ln_1.g ln_1.b
  pure (layer_norm (addM x1 (ffn x1 mlp.c_fc mlp.c_proj)) ln_2.g ln_2.b)

/-- numpy integer indexing into the rows of a 2-D array: a negative index
`i` selects row `len + i`; an index outside `[-len, len)` raises
(here: `none`). -/
def npIndex (t : Mat) (i : ℤ) : Option Vec :=
  if 0 ≤ (if i < 0 then i + t.length else i) ∧
      (if i < 0 then i + t.length else i) < (t.length : ℤ) then
    t[(if i < 0 then i + t.length else i).toNat]?
  else none

/-- Source `bert(inputs, segment_ids, wte, wpe, wtte, ln_0, blocks, pooler,
n_head)`: sum of token, position and segment embedding lookups, input layer
norm, then the blocks in order.  The `pooler` argument is accepted but never
used (the pooler application in the source is commented out). -/
noncomputable def bert (inputs : List ℤ) (segment_ids : List ℤ) (wte wpe wtte : Mat)
    (ln_0 : LayerNormParams) (blocks : List BlockParams) (pooler : LinearParams)
    (n_head : ℕ) : Option Mat := do
  let te ← inputs.mapM (npIndex wte)
  let pe ← (List.range inputs.length).mapM (fun n : ℕ => npIndex wpe (n : ℤ))
  let se ← segment_ids.mapM (npIndex wtte)
  let x0 := layer_norm (addM (addM te pe) se) ln_0.g ln_0.b
  blocks.foldlM
    (fun acc blk => transformer_block acc blk.mlp blk.attn blk.ln_1 blk.ln_2 n_head) x0

/-- Source `mean_pooling_and_normalization`, step `o = np.mean(x, axis=0)`:
the vector of column means. -/
noncomputable def npMeanAxis0 (x : Mat) : Vec :=
  (transposeM x).map (fun c => c.sum / (x.length : ℝ))

/-- `np.linalg.norm(o)` of a 1-D array: the Euclidean norm. -/
noncomputable def l2norm (v : Vec) : ℝ := Real.sqrt ((v.map (fun a => a ^ 2)).sum)

/-- Source `mean_pooling_and_normalization(x)`: mean over the sequence axis,
then division by its own Euclidean norm. -/
noncomputable def mean_pooling_and_normalization (x : Mat) : Vec :=
  (npMeanAxis0 x).map (fun a => a / l2norm (npMeanAxis0 x))

/-! ## The parameter tree builder (`load_encoder_hparams_and_params`)

The torch checkpoint is modelled as a name-keyed store of tensors.  In a
real checkpoint every expected name holds a tensor of a fixed rank, so the
store is modelled as two partial maps, one for the 2-D tensors and one for
the 1-D tensors the builder reads.  A lookup of an absent name raises
`KeyError` naming the key; this is modelled by `Except String`. -/

structure WeightStore where
  mats : String → Option Mat
  vecs : String → Option Vec

def fetchM (s : WeightStore) (k : String) : Except String Mat :=
  match s.mats k with
  | some x => Except.ok x
  | none => Except.error k

def fetchV (s : WeightStore) (k : String) : Except String Vec :=
  match s.vecs k with
  | some x => Except.ok x
  | none => Except.error k

structure Hparams where
  n_head : ℕ
  n_ctx : ℕ

structure Params where
  ln_0 : LayerNormParams
  wte : Mat
  wpe : Mat
  wtte : Mat
  blocks : List BlockParams
  pooler : LinearParams

/-- Source: `n_layers = 6`, a declared constant, not read from the store. -/
def n_layers : ℕ := 6

/-- The fused attention projection built by the loader:
`c_attn.w = np.hstack((q.w.T, k.w.T, v.w.T))`,
`c_attn.b = np.hstack((q.b, k.b, v.b))`. -/
def mkCAttn (qw kw vw : Mat) (qb kb vb : Vec) : LinearParams :=
  { w := hstack [transposeM qw, transposeM kw, transposeM vw]
    b := qb ++ (kb ++ vb) }

def blockPrefix (i : ℕ) : String := "encoder.layer." ++ toString i

/-- One iteration of the loader's per-layer loop. -/
def mkBlock (s : WeightStore) (i : ℕ) : Except String BlockParams := do
  let qw ← fetchM s (blockPrefix i ++ ".attention.self.query.weight")
  let qb ← fetchV s (blockPrefix i ++ ".attention.self.query.bias")
  let kw ← fetchM s (blockPrefix i ++ ".attention.self.key.weight")
  let kb ← fetchV s (blockPrefix i ++ ".attention.self.key.bias")
  let vw ← fetchM s (blockPrefix i ++ ".attention.self.value.weight")
  let vb ← fetchV s (blockPrefix i ++ ".attention.self.value.bias")
  let cpw ← fetchM s (blockPrefix i ++ ".attention.output.dense.weight")
  let cpb ← fetchV s (blockPrefix i ++ ".attention.output.dense.bias")
  let ln1g ← fetchV s (blockPrefix i ++ ".attention.output.LayerNorm.weight")
  let ln1b ← fetchV s (blockPrefix i ++ ".attention.output.LayerNorm.bias")
  let fcw ← fetchM s (blockPrefix i ++ ".intermediate.dense.weight")
  let fcb ← fetchV s (blockPrefix i ++ ".intermediate.dense.bias")
  let pw ← fetchM s (blockPrefix i ++ ".output.dense.weight")
  let pb ← fetchV s (blockPrefix i ++ ".output.dense.bias")
  let ln2g ← fetchV s (blockPrefix i ++ ".output.LayerNorm.weight")
  let ln2b ← fetchV s (blockPrefix i ++ ".output.LayerNorm.bias")
  pure { mlp := { c_fc := { w := transposeM fcw, b := fcb }
                  c_proj := { w := transposeM pw, b := pb } }
         attn := { c_attn := mkCAttn qw kw vw qb kb vb
                   c_proj := { w := transposeM cpw, b := cpb } }
         ln_1 := { g := ln1g, b := ln1b }
         ln_2 := { g := ln2g, b := ln2b } }

/-- Source `load_encoder_hparams_and_params`: builds the parameter tree
from the weight store and returns it with the declared hyperparameters
`n_head = 12`, `n_ctx = 1024`. -/
def load_encoder_hparams_and_params (s : WeightStore) :
    Except String (Hparams × Params) := do
  let wte ← fetchM s ("embeddings.word_embeddings.weight")
  let wpe ← fetchM s ("embeddings.position_embeddings.weight")
  let wtte ← fetchM s ("embeddings.token_type_embeddings.weight")
  let ln0g ← fetchV s ("embeddings.LayerNorm.weight")
  let ln0b ← fetchV s ("embeddings.LayerNorm.bias")
  let blocks ← (List.range n_layers).mapM (mkBlock s)
  let pw ← fetchM s ("pooler.dense.weight")
  let pb ← fetchV s ("pooler.dense.bias")
  pure ({ n_head := 12, n_ctx := 1024 },
        { ln_0 := { g := ln0g, b := ln0b }, wte := wte, wpe := wpe, wtte := wtte,
          blocks := blocks, pooler := { w := transposeM pw, b := pb } })

/-- The 2-D tensor names the loader reads for layer `i`. -/
def blockMatKeys (i : ℕ) : List String :=
  [blockPrefix i ++ ".attention.self.query.weight",
   blockPrefix i ++ ".attention.self.key.weight",
   blockPrefix i ++ ".attention.self.value.weight",
   blockPrefix i ++ ".attention.output.dense.weight",
   blockPrefix i ++ ".intermediate.dense.weight",
   blockPrefix i ++ ".output.dense.weight"]

/-- The 1-D tensor names the loader reads for layer `i`. -/
def blockVecKeys (i : ℕ) : List String :=
  [blockPrefix i ++ ".attention.self.query.bias",
   blockPrefix i ++ ".attention.self.key.bias",
   blockPrefix i ++ ".attention.self.value.bias",
   blockPrefix i ++ ".attention.output.dense.bias",
   blockPrefix i ++ ".attention.output.LayerNorm.weight",
   blockPrefix i ++ ".attention.output.LayerNorm.bias",
   blockPrefix i ++ ".intermediate.dense.bias",
   blockPrefix i ++ ".output.dense.bias",
   blockPrefix i ++ ".output.LayerNorm.weight",
   blockPrefix i ++ ".output.LayerNorm.bias"]

/-- All 2-D tensor names the loader expects. -/
def expectedMatKeys : List String :=
  ["embeddings.word_embeddings.weight",
   "embeddings.position_embeddings.weight",
   "embeddings.token_type_embeddings.weight"] ++
  (List.range n_layers).flatMap blockMatKeys ++ ["pooler.dense.weight"]

/-- All 1-D tensor names the loader expects. -/
def expectedVecKeys : List String :=
  ["embeddings.LayerNorm.weight", "embeddings.LayerNorm.bias"] ++
  (List.range n_layers).flatMap blockVecKeys ++ ["pooler.dense.bias"]

/-! ## Shape predicates used to state the claims -/

/-- A linear layer in math (`x @ w + b`) convention with input dimension
`din` and output dimension `dout`. -/
def WSLinear (p : LinearParams) (din dout : ℕ) : Prop :=
  p.w.length = din ∧ (∀ r ∈ p.w, r.length = dout) ∧ p.b.length = dout

/-- A transformer block whose parameters are shaped for hidden dimension
`h` (with some positive inner feed-forward dimension). -/
def WSBlock (blk : BlockParams) (h : ℕ) : Prop :=
  WSLinear blk.attn.c_attn h (3 * h) ∧ WSLinear blk.attn.c_proj h h ∧
  blk.ln_1.g.length = h ∧ blk.ln_1.b.length = h ∧
  (∃ d, 0 < d ∧ WSLinear blk.mlp.c_fc h d ∧ WSLinear blk.mlp.c_proj d h) ∧
  blk.ln_2.g.length = h ∧ blk.ln_2.b.length = h

/-! ## Helper lemmas -/

theorem sum_map_div (l : List ℝ) (c : ℝ) :
    (l.map (fun a => a / c)).sum = l.sum / c := by
  induction l with
  | nil => simp
  | cons a t ih => simp [ih, add_div]

theorem softmaxRow_sum_one (r : Vec) (hr : r ≠ []) :
    (softmaxRow r).sum = 1 ∧ ∀ a ∈ softmaxRow r, 0 ≤ a := by
  have hpos : ∀ a ∈ r.map (fun v => Real.exp (v - rowMax r)), 0 < a := by
    intro a ha
    obtain ⟨v, hv, rfl⟩ := List.mem_map.mp ha
    exact Real.exp_pos _
  have hne : r.map (fun v => Real.exp (v - rowMax r)) ≠ [] := by
    simpa using hr
  have hsum : 0 < (r.map (fun v => Real.exp (v - rowMax r))).sum :=
    List.sum_pos _ hpos hne
  constructor
  · show ((r.map (fun v => Real.exp (v - rowMax r))).map
      (fun v => v / (r.map (fun v => Real.exp (v - rowMax r))).sum)).sum = 1
    rw [sum_map_div, div_self (ne_of_gt hsum)]
  · intro a ha
    obtain ⟨v, hv, rfl⟩ := List.mem_map.mp ha
    exact le_of_lt (div_pos (hpos v hv) hsum)

theorem unit_norm_aux (o : Vec) (hne : (o.map (fun b => b ^ 2)).sum ≠ 0) :
    Real.sqrt (((o.map (fun a => a / Real.sqrt ((o.map (fun b => b ^ 2)).sum))).map
      (fun a => a ^ 2)).sum) = 1 := by
  have hS0 : 0 ≤ (o.map (fun b => b ^ 2)).sum := by
    apply List.sum_nonneg
    intro a ha
    obtain ⟨b, hb, rfl⟩ := List.mem_map.mp ha
    exact sq_nonneg b
  have hsq : Real.sqrt ((o.map (fun b => b ^ 2)).sum) ^ 2 = (o.map (fun b => b ^ 2)).sum :=
    Real.sq_sqrt hS0
  rw [List.map_map]
  have hcomp : ((fun a : ℝ => a ^ 2) ∘ fun a => a / Real.sqrt ((o.map (fun b => b ^ 2)).sum))
      = fun a => a ^ 2 / Real.sqrt ((o.map (fun b => b ^ 2)).sum) ^ 2 := by
    funext a
    simp [div_pow]
  rw [hcomp, hsq]
  have hdiv : (o.map (fun a => a ^ 2 / (o.map (fun b => b ^ 2)).sum)).sum
      = ((o.map (fun b => b ^ 2)).sum) / ((o.map (fun b => b ^ 2)).sum) := by
    rw [show (fun a : ℝ => a ^ 2 / (o.map (fun b => b ^ 2)).sum)
        = (fun a => a / (o.map (fun b => b ^ 2)).sum) ∘ (fun a : ℝ => a ^ 2) from rfl,
      ← List.map_map, sum_map_div]
  rw [hdiv, div_self hne, Real.sqrt_one]

theorem width_eq (m : Mat) (c : ℕ) (hne : m ≠ []) (h : ∀ r ∈ m, r.length = c) :
    width m = c := by
  cases m with
  | nil => exact absurd rfl hne
  | cons a t => exact h a (by simp)

theorem transposeM_shape (m : Mat) (rn c : ℕ) (hm : m.length = rn)
    (hrow : ∀ r ∈ m, r.length = c) (hr : 0 < rn) :
    (transposeM m).length = c ∧ ∀ col ∈ transposeM m, col.length = rn := by
  have hne : m ≠ [] := by
    intro e
    rw [e] at hm
    simp at hm
    omega
  have hw : width m = c := width_eq m c hne hrow
  constructor
  · simp [transposeM, hw]
  · intro col hcol
    obtain ⟨j, hj, rfl⟩ := List.mem_map.mp hcol
    simp [hm]

theorem matmul_shape (x w : Mat) (k c : ℕ) (hw : w.length = k)
    (hww : ∀ r ∈ w, r.length = c) (hk : 0 < k) :
    (matmul x w).length = x.length ∧ ∀ r ∈ matmul x w, r.length = c := by
  obtain ⟨hlen, _⟩ := transposeM_shape w k c hw hww hk
  constructor
  · simp [matmul]
  · intro r hr
    obtain ⟨r0, hr0, rfl⟩ := List.mem_map.mp hr
    simp [hlen]

theorem linear_shape (x w : Mat) (b : Vec) (k c : ℕ) (hw : w.length = k)
    (hww : ∀ r ∈ w, r.length = c) (hb : b.length = c) (hk : 0 < k) :
    (linear x w b).length = x.length ∧ ∀ r ∈ linear x w b, r.length = c := by
  obtain ⟨h1, h2⟩ := matmul_shape x w k c hw hww hk
  constructor
  · simp [linear, addBias, h1]
  · intro r hr
    obtain ⟨r0, hr0, rfl⟩ := List.mem_map.mp hr
    simp [addVec, h2 r0 hr0, hb]

theorem mem_zipWith' {α β γ : Type _} (f : α → β → γ) :
    ∀ (A : List α) (B : List β) (c : γ), c ∈ List.zipWith f A B →
      ∃ a ∈ A, ∃ b ∈ B, c = f a b
  | [], B, c => by simp
  | a :: A, [], c => by simp
  | a :: A, b :: B, c => by
    intro hc
    simp only [List.zipWith_cons_cons, List.mem_cons] at hc
    rcases hc with rfl | hc
    · exact ⟨a, by simp, b, by simp, rfl⟩
    · obtain ⟨a', ha, b', hb, rfl⟩ := mem_zipWith' f A B c hc
      exact ⟨a', by simp [ha], b', by simp [hb], rfl⟩

theorem hstack2_rows (A B : Mat) (p q : ℕ) (hA : ∀ r ∈ A, r.length = p)
    (hB : ∀ r ∈ B, r.length = q) : ∀ r ∈ hstack2 A B, r.length = p + q := by
  intro r hr
  obtain ⟨a, ha, b, hb, rfl⟩ := mem_zipWith' _ A B r hr
  simp [hA a ha, hB b hb]

theorem hstack2_length (A B : Mat) : (hstack2 A B).length = min A.length B.length := by
  unfold hstack2
  exact List.length_zipWith _ _ _

theorem map_getD_hstack2_left (p j : ℕ) (hj : j < p) :
    ∀ (A B : Mat), A.length = B.length → (∀ r ∈ A, r.length = p) →
      (hstack2 A B).map (fun r => r.getD j 0) = A.map (fun r => r.getD j 0)
  | [], B, h1, h2 => by simp [hstack2]
  | a :: A, [], h1, h2 => by simp at h1
  | a :: A, b :: B, h1, h2 => by
    simp only [hstack2, List.zipWith_cons_cons, List.map_cons]
    congr 1
    · exact List.getD_append a b 0 j (by rw [h2 a (by simp)]; exact hj)
    · exact map_getD_hstack2_left p j hj A B (by simpa using h1)
        (fun r hr => h2 r (by simp [hr]))

theorem map_getD_hstack2_right (p j : ℕ) :
    ∀ (A B : Mat), A.length = B.length → (∀ r ∈ A, r.length = p) →
      (hstack2 A B).map (fun r => r.getD (p + j) 0) = B.map (fun r => r.getD j 0)
  | [], B, h1, h2 => by
    have : B = [] := List.length_eq_zero.mp h1.symm
    subst this
    simp [hstack2]
  | a :: A, [], h1, h2 => by simp at h1
  | a :: A, b :: B, h1, h2 => by
    simp only [hstack2, List.zipWith_cons_cons, List.map_cons]
    congr 1
    · rw [List.getD_append_right a b 0 (p + j) (by rw [h2 a (by simp)]; omega)]
      rw [h2 a (by simp)]
      congr 1
      omega
    · exact map_getD_hstack2_right p j A B (by simpa using h1)
        (fun r hr => h2 r (by simp [hr]))

theorem transposeM_hstack2 (A B : Mat) (p q : ℕ) (hlen : A.length = B.length)
    (hA : ∀ r ∈ A, r.length = p) (hB : ∀ r ∈ B, r.length = q) (hAne : A ≠ []) :
    transposeM (hstack2 A B) = transposeM A ++ transposeM B := by
  have hBne : B ≠ [] := by
    intro e
    rw [e] at hlen
    simp at hlen
    exact hAne hlen
  have hwA : width A = p := width_eq A p hAne hA
  have hwB : width B = q := width_eq B q hBne hB
  have hwAB : width (hstack2 A B) = p + q := by
    cases A with
    | nil => exact absurd rfl hAne
    | cons a A' =>
      cases B with
      | nil => exact absurd rfl hBne
      | cons b B' =>
        simp only [hstack2, List.zipWith_cons_cons, width, List.headD_cons,
          List.length_append]
        rw [hA a (by simp), hB b (by simp)]
  unfold transposeM
  rw [hwAB, hwA, hwB, List.range_add, List.map_append, List.map_map]
  congr 1
  · apply List.map_congr_left
    intro j hj
    exact map_getD_hstack2_left p j (List.mem_range.mp hj) A B hlen hA
  · apply List.map_congr_left
    intro j hj
    exact map_getD_hstack2_right p j A B hlen hA

theorem zipWith_append_map {α β : Type _} (x : List α) (f g : α → List β) :
    List.zipWith (fun r s => r ++ s) (x.map f) (x.map g) = x.map (fun r => f r ++ g r) := by
  induction x with
  | nil => simp
  | cons a t ih => simp [ih]

theorem matmul_hstack2 (x A B : Mat) (p q : ℕ) (hlen : A.length = B.length)
    (hA : ∀ r ∈ A, r.length = p) (hB : ∀ r ∈ B, r.length = q) (hAne : A ≠ []) :
    matmul x (hstack2 A B) = hstack2 (matmul x A) (matmul x B) := by
  unfold matmul
  rw [transposeM_hstack2 A B p q hlen hA hB hAne]
  rw [show (fun r => ((transposeM A) ++ (transposeM B)).map (fun c => dot r c)) =
      fun r => (transposeM A).map (fun c => dot r c) ++
        (transposeM B).map (fun c => dot r c) from
    funext (fun r => List.map_append _ _ _)]
  exact (zipWith_append_map x _ _).symm

theorem addBias_hstack2 :
    ∀ (M N : Mat) (b1 b2 : Vec), (∀ r ∈ M, r.length = b1.length) →
      addBias (hstack2 M N) (b1 ++ b2) = hstack2 (addBias M b1) (addBias N b2)
  | [], N, b1, b2, hM => by simp [addBias, hstack2]
  | m :: M, [], b1, b2, hM => by simp [addBias, hstack2]
  | m :: M, nr :: N, b1, b2, hM => by
    simp only [hstack2, List.zipWith_cons_cons, addBias, List.map_cons]
    congr 1
    · exact List.zipWith_append _ m nr b1 b2 (hM m (by simp))
    · exact addBias_hstack2 M N b1 b2 (fun r hr => hM r (by simp [hr]))

theorem hstack2_assoc :
    ∀ (A B C : Mat), hstack2 (hstack2 A B) C = hstack2 A (hstack2 B C)
  | [], B, C => by simp [hstack2]
  | a :: A, [], C => by simp [hstack2]
  | a :: A, b :: B, [] => by simp [hstack2]
  | a :: A, b :: B, c :: C => by
    simp only [hstack2, List.zipWith_cons_cons]
    rw [List.append_assoc]
    congr 1
    exact hstack2_assoc A B C

theorem split3_rows (h : ℕ) :
    ∀ (Y1 Y2 Y3 : Mat), Y1.length = Y2.length → Y2.length = Y3.length →
      (∀ r ∈ Y1, r.length = h) → (∀ r ∈ Y2, r.length = h) →
      (∀ r ∈ Y3, r.length = h) →
      (hstack2 Y1 (hstack2 Y2 Y3)).map (fun r => (r.drop 0).take h) = Y1 ∧
      (hstack2 Y1 (hstack2 Y2 Y3)).map (fun r => (r.drop h).take h) = Y2 ∧
      (hstack2 Y1 (hstack2 Y2 Y3)).map (fun r => (r.drop (2 * h)).take h) = Y3
  | [], Y2, Y3, h1, h2, _, _, _ => by
    have e2 : Y2 = [] := List.length_eq_zero.mp h1.symm
    subst e2
    have e3 : Y3 = [] := List.length_eq_zero.mp h2.symm
    subst e3
    simp [hstack2]
  | y1 :: Y1, Y2, Y3, h1, h2, hh1, hh2, hh3 => by
    cases Y2 with
    | nil => simp at h1
    | cons y2 Y2 =>
      cases Y3 with
      | nil => simp at h2
      | cons y3 Y3 =>
        obtain ⟨ih1, ih2, ih3⟩ := split3_rows h Y1 Y2 Y3 (by simpa using h1)
          (by simpa using h2) (fun r hr => hh1 r (by simp [hr]))
          (fun r hr => hh2 r (by simp [hr])) (fun r hr => hh3 r (by simp [hr]))
        have hdrop : (y1 ++ (y2 ++ y3)).drop h = y2 ++ y3 := by
          rw [← hh1 y1 (by simp)]
          exact List.drop_left y1 (y2 ++ y3)
        refine ⟨?_, ?_, ?_⟩
        · simp only [hstack2, List.zipWith_cons_cons, List.map_cons, List.cons.injEq]
          refine ⟨?_, ih1⟩
          rw [List.drop_zero]
          exact List.take_left' (hh1 y1 (by simp))
        · simp only [hstack2, List.zipWith_cons_cons, List.map_cons, List.cons.injEq]
          refine ⟨?_, ih2⟩
          rw [hdrop]
          exact List.take_left' (hh2 y2 (by simp))
        · simp only [hstack2, List.zipWith_cons_cons, List.map_cons, List.cons.injEq]
          refine ⟨?_, ih3⟩
          rw [show 2 * h = h + h from by omega, ← List.drop_drop, hdrop]
          rw [List.drop_left' (hh2 y2 (by simp))]
          rw [← hh3 y3 (by simp)]
          exact List.take_length y3

theorem npSplitCols_three (Y1 Y2 Y3 : Mat) (h : ℕ) (hY : 0 < Y1.length)
    (h12 : Y1.length = Y2.length) (h23 : Y2.length = Y3.length)
    (hh1 : ∀ r ∈ Y1, r.length = h) (hh2 : ∀ r ∈ Y2, r.length = h)
    (hh3 : ∀ r ∈ Y3, r.length = h) :
    npSplitCols (hstack2 Y1 (hstack2 Y2 Y3)) 3 = some [Y1, Y2, Y3] := by
  have hw : width (hstack2 Y1 (hstack2 Y2 Y3)) = 3 * h := by
    cases Y1 with
    | nil => simp at hY
    | cons y1 Y1' =>
      cases Y2 with
      | nil => simp at h12
      | cons y2 Y2' =>
        cases Y3 with
        | nil => simp at h23
        | cons y3 Y3' =>
          simp only [hstack2, List.zipWith_cons_cons, width, List.headD_cons,
            List.length_append]
          rw [hh1 y1 (by simp), hh2 y2 (by simp), hh3 y3 (by simp)]
          omega
  unfold npSplitCols
  rw [hw]
  rw [if_pos ⟨by norm_num, ⟨h, rfl⟩⟩]
  have hdiv : 3 * h / 3 = h := Nat.mul_div_cancel_left h (by norm_num)
  rw [hdiv]
  rw [show List.range 3 = [0, 1, 2] from rfl]
  simp only [List.map_cons, List.map_nil, Nat.zero_mul, Nat.one_mul]
  obtain ⟨e1, e2, e3⟩ := split3_rows h Y1 Y2 Y3 h12 h23 hh1 hh2 hh3
  rw [e1, e2, e3]

theorem except_ok_bind {ε α β : Type _} (a : α) (f : α → Except ε β) :
    (Except.ok a >>= f : Except ε β) = f a := rfl

theorem except_error_bind {ε α β : Type _} (e : ε) (f : α → Except ε β) :
    ((Except.error e : Except ε α) >>= f) = Except.error e := rfl

theorem except_pure_eq_ok {ε α : Type _} (a : α) :
    (pure a : Except ε α) = Except.ok a := rfl

theorem exceptBind_ok {ε α β : Type _} (m : Except ε α) (f : α → Except ε β) (b : β) :
    (m >>= f) = Except.ok b ↔ ∃ a, m = Except.ok a ∧ f a = Except.ok b := by
  cases m with
  | error e => rw [except_error_bind]; simp
  | ok a => rw [except_ok_bind]; simp

theorem exceptBind_error {ε α β : Type _} (m : Except ε α) (f : α → Except ε β)
    (e : ε) :
    (m >>= f) = Except.error e ↔
      m = Except.error e ∨ ∃ a, m = Except.ok a ∧ f a = Except.error e := by
  cases m with
  | error e' => rw [except_error_bind]; simp
  | ok a => rw [except_ok_bind]; simp

theorem fetchM_ok_iff (s : WeightStore) (k : String) (x : Mat) :
    fetchM s k = Except.ok x ↔ s.mats k = some x := by
  unfold fetchM
  cases hsk : s.mats k <;> simp

theorem fetchM_error_iff (s : WeightStore) (k e : String) :
    fetchM s k = Except.error e ↔ (e = k ∧ s.mats k = none) := by
  unfold fetchM
  cases hsk : s.mats k with
  | none => simp [eq_comm]
  | some x => simp

theorem fetchV_ok_iff (s : WeightStore) (k : String) (x : Vec) :
    fetchV s k = Except.ok x ↔ s.vecs k = some x := by
  unfold fetchV
  cases hsk : s.vecs k <;> simp

theorem fetchV_error_iff (s : WeightStore) (k e : String) :
    fetchV s k = Except.error e ↔ (e = k ∧ s.vecs k = none) := by
  unfold fetchV
  cases hsk : s.vecs k with
  | none => simp [eq_comm]
  | some x => simp

theorem stepM_error {β : Type} (s : WeightStore) (k : String)
    (rest : Mat → Except String β) (e : String)
    (h : (fetchM s k >>= rest) = Except.error e) :
    (e = k ∧ s.mats k = none) ∨ ∃ x, s.mats k = some x ∧ rest x = Except.error e := by
  rcases (exceptBind_error _ _ _).mp h with h1 | ⟨x, hx, h2⟩
  · exact Or.inl ((fetchM_error_iff s k e).mp h1)
  · exact Or.inr ⟨x, (fetchM_ok_iff s k x).mp hx, h2⟩

theorem stepV_error {β : Type} (s : WeightStore) (k : String)
    (rest : Vec → Except String β) (e : String)
    (h : (fetchV s k >>= rest) = Except.error e) :
    (e = k ∧ s.vecs k = none) ∨ ∃ x, s.vecs k = some x ∧ rest x = Except.error e := by
  rcases (exceptBind_error _ _ _).mp h with h1 | ⟨x, hx, h2⟩
  · exact Or.inl ((fetchV_error_iff s k e).mp h1)
  · exact Or.inr ⟨x, (fetchV_ok_iff s k x).mp hx, h2⟩

theorem stepM_ok {β : Type} (s : WeightStore) (k : String)
    (rest : Mat → Except String β) (b : β)
    (h : (fetchM s k >>= rest) = Except.ok b) :
    ∃ x, s.mats k = some x ∧ rest x = Except.ok b := by
  obtain ⟨x, hx, h2⟩ := (exceptBind_ok _ _ _).mp h
  exact ⟨x, (fetchM_ok_iff s k x).mp hx, h2⟩

theorem stepV_ok {β : Type} (s : WeightStore) (k : String)
    (rest : Vec → Except String β) (b : β)
    (h : (fetchV s k >>= rest) = Except.ok b) :
    ∃ x, s.vecs k = some x ∧ rest x = Except.ok b := by
  obtain ⟨x, hx, h2⟩ := (exceptBind_ok _ _ _).mp h
  exact ⟨x, (fetchV_ok_iff s k x).mp hx, h2⟩

theorem except_mapM_error {ε α β : Type _} (f : α → Except ε β) :
    ∀ (l : List α) (e : ε), l.mapM f = Except.error e → ∃ a ∈ l, f a = Except.error e
  | [], e, h => by
    rw [List.mapM_nil] at h
    exact absurd h (by simp [except_pure_eq_ok])
  | a :: l, e, h => by
    rw [List.mapM_cons] at h
    rcases (exceptBind_error _ _ _).mp h with h1 | ⟨b, hb, h2⟩
    · exact ⟨a, by simp, h1⟩
    · rcases (exceptBind_error _ _ _).mp h2 with h3 | ⟨bs, hbs, h4⟩
      · obtain ⟨a', ha', hf⟩ := except_mapM_error f l e h3
        exact ⟨a', by simp [ha'], hf⟩
      · exact absurd h4 (by simp [except_pure_eq_ok])

theorem except_mapM_ok {ε α β : Type _} (f : α → Except ε β) :
    ∀ (l : List α) (bs : List β), l.mapM f = Except.ok bs →
      bs.length = l.length ∧ ∀ a ∈ l, ∃ b, f a = Except.ok b
  | [], bs, h => by
    rw [List.mapM_nil, except_pure_eq_ok] at h
    injection h with h'
    subst h'
    exact ⟨rfl, by simp⟩
  | a :: l, bs, h => by
    rw [List.mapM_cons] at h
    obtain ⟨b, hb, h2⟩ := (exceptBind_ok _ _ _).mp h
    obtain ⟨bs', hbs', h3⟩ := (exceptBind_ok _ _ _).mp h2
    rw [except_pure_eq_ok] at h3
    injection h3 with h4
    obtain ⟨hlen, hall⟩ := except_mapM_ok f l bs' hbs'
    rw [← h4]
    refine ⟨by simp [hlen], ?_⟩
    intro a' ha'
    rcases List.mem_cons.mp ha' with rfl | hmem
    · exact ⟨b, hb⟩
    · exact hall a' hmem

theorem except_mapM_ok_of {ε α β : Type _} (f : α → Except ε β) :
    ∀ (l : List α), (∀ a ∈ l, ∃ b, f a = Except.ok b) →
      ∃ bs, l.mapM f = Except.ok bs ∧ bs.length = l.length
  | [], _ => ⟨[], by rw [List.mapM_nil]; rfl, rfl⟩
  | a :: l, hl => by
    obtain ⟨b, hb⟩ := hl a (by simp)
    obtain ⟨bs, hbs, hlen⟩ := except_mapM_ok_of f l (fun a' ha' => hl a' (by simp [ha']))
    refine ⟨b :: bs, ?_, by simp [hlen]⟩
    simp only [List.mapM_cons, hb, hbs, except_ok_bind, except_pure_eq_ok]

theorem mkBlock_error (s : WeightStore) (i : ℕ) (e : String)
    (h : mkBlock s i = Except.error e) :
    (e ∈ blockMatKeys i ∧ s.mats e = none) ∨
    (e ∈ blockVecKeys i ∧ s.vecs e = none) := by
  unfold mkBlock at h
  rcases stepM_error _ _ _ _ h with ⟨rfl, hn⟩ | ⟨qw, hqw, h⟩
  · exact Or.inl ⟨by simp [blockMatKeys], hn⟩
  rcases stepV_error _ _ _ _ h with ⟨rfl, hn⟩ | ⟨qb, hqb, h⟩
  · exact Or.inr ⟨by simp [blockVecKeys], hn⟩
  rcases stepM_error _ _ _ _ h with ⟨rfl, hn⟩ | ⟨kw, hkw, h⟩
  · exact Or.inl ⟨by simp [blockMatKeys], hn⟩
  rcases stepV_error _ _ _ _ h with ⟨rfl, hn⟩ | ⟨kb, hkb, h⟩
  · exact Or.inr ⟨by simp [blockVecKeys], hn⟩
  rcases stepM_error _ _ _ _ h with ⟨rfl, hn⟩ | ⟨vw, hvw, h⟩
  · exact Or.inl ⟨by simp [blockMatKeys], hn⟩
  rcases stepV_error _ _ _ _ h with ⟨rfl, hn⟩ | ⟨vb, hvb, h⟩
  · exact Or.inr ⟨by simp [blockVecKeys], hn⟩
  rcases stepM_error _ _ _ _ h with ⟨rfl, hn⟩ | ⟨cpw, hcpw, h⟩
  · exact Or.inl ⟨by simp [blockMatKeys], hn⟩
  rcases stepV_error _ _ _ _ h with ⟨rfl, hn⟩ | ⟨cpb, hcpb, h⟩
  · exact Or.inr ⟨by simp [blockVecKeys], hn⟩
  rcases stepV_error _ _ _ _ h with ⟨rfl, hn⟩ | ⟨ln1g, hln1g, h⟩
  · exact Or.inr ⟨by simp [blockVecKeys], hn⟩
  rcases stepV_error _ _ _ _ h with ⟨rfl, hn⟩ | ⟨ln1b, hln1b, h⟩
  · exact Or.inr ⟨by simp [blockVecKeys], hn⟩
  rcases stepM_error _ _ _ _ h with ⟨rfl, hn⟩ | ⟨fcw, hfcw, h⟩
  · exact Or.inl ⟨by simp [blockMatKeys], hn⟩
  rcases stepV_error _ _ _ _ h with ⟨rfl, hn⟩ | ⟨fcb, hfcb, h⟩
  · exact Or.inr ⟨by simp [blockVecKeys], hn⟩
  rcases stepM_error _ _ _ _ h with ⟨rfl, hn⟩ | ⟨pw, hpw, h⟩
  · exact Or.inl ⟨by simp [blockMatKeys], hn⟩
  rcases stepV_error _ _ _ _ h with ⟨rfl, hn⟩ | ⟨pb, hpb, h⟩
  · exact Or.inr ⟨by simp [blockVecKeys], hn⟩
  rcases stepV_error _ _ _ _ h with ⟨rfl, hn⟩ | ⟨ln2g, hln2g, h⟩
  · exact Or.inr ⟨by simp [blockVecKeys], hn⟩
  rcases stepV_error _ _ _ _ h with ⟨rfl, hn⟩ | ⟨ln2b, hln2b, h⟩
  · exact Or.inr ⟨by simp [blockVecKeys], hn⟩
  exact absurd h (by simp [except_pure_eq_ok])

theorem mkBlock_ok_means (s : WeightStore) (i : ℕ) (b : BlockParams)
    (h : mkBlock s i = Except.ok b) :
    (∀ k ∈ blockMatKeys i, s.mats k ≠ none) ∧
    (∀ k ∈ blockVecKeys i, s.vecs k ≠ none) := by
  unfold mkBlock at h
  obtain ⟨qw, hqw, h⟩ := stepM_ok _ _ _ _ h
  obtain ⟨qb, hqb, h⟩ := stepV_ok _ _ _ _ h
  obtain ⟨kw, hkw, h⟩ := stepM_ok _ _ _ _ h
  obtain ⟨kb, hkb, h⟩ := stepV_ok _ _ _ _ h
  obtain ⟨vw, hvw, h⟩ := stepM_ok _ _ _ _ h
  obtain ⟨vb, hvb, h⟩ := stepV_ok _ _ _ _ h
  obtain ⟨cpw, hcpw, h⟩ := stepM_ok _ _ _ _ h
  obtain ⟨cpb, hcpb, h⟩ := stepV_ok _ _ _ _ h
  obtain ⟨ln1g, hln1g, h⟩ := stepV_ok _ _ _ _ h
  obtain ⟨ln1b, hln1b, h⟩ := stepV_ok _ _ _ _ h
  obtain ⟨fcw, hfcw, h⟩ := stepM_ok _ _ _ _ h
  obtain ⟨fcb, hfcb, h⟩ := stepV_ok _ _ _ _ h
  obtain ⟨pw, hpw, h⟩ := stepM_ok _ _ _ _ h
  obtain ⟨pb, hpb, h⟩ := stepV_ok _ _ _ _ h
  obtain ⟨ln2g, hln2g, h⟩ := stepV_ok _ _ _ _ h
  obtain ⟨ln2b, hln2b, h⟩ := stepV_ok _ _ _ _ h
  constructor
  · intro k hk
    simp only [blockMatKeys, List.mem_cons, List.not_mem_nil, or_false] at hk
    rcases hk with rfl | rfl | rfl | rfl | rfl | rfl
    · rw [hqw]; simp
    · rw [hkw]; simp
    · rw [hvw]; simp
    · rw [hcpw]; simp
    · rw [hfcw]; simp
    · rw [hpw]; simp
  · intro k hk
    simp only [blockVecKeys, List.mem_cons, List.not_mem_nil, or_false] at hk
    rcases hk with rfl | rfl | rfl | rfl | rfl | rfl | rfl | rfl | rfl | rfl
    · rw [hqb]; simp
    · rw [hkb]; simp
    · rw [hvb]; simp
    · rw [hcpb]; simp
    · rw [hln1g]; simp
    · rw [hln1b]; simp
    · rw [hfcb]; simp
    · rw [hpb]; simp
    · rw [hln2g]; simp
    · rw [hln2b]; simp

theorem mkBlock_ok_of (s : WeightStore) (i : ℕ)
    (hm : ∀ k ∈ blockMatKeys i, ∃ x, s.mats k = some x)
    (hv : ∀ k ∈ blockVecKeys i, ∃ x, s.vecs k = some x) :
    ∃ b, mkBlock s i = Except.ok b := by
  obtain ⟨qw, hqw⟩ := hm (blockPrefix i ++ ".attention.self.query.weight")
    (by simp [blockMatKeys])
  obtain ⟨qb, hqb⟩ := hv (blockPrefix i ++ ".attention.self.query.bias")
    (by simp [blockVecKeys])
  obtain ⟨kw, hkw⟩ := hm (blockPrefix i ++ ".attention.self.key.weight")
    (by simp [blockMatKeys])
  obtain ⟨kb, hkb⟩ := hv (blockPrefix i ++ ".attention.self.key.bias")
    (by simp [blockVecKeys])
  obtain ⟨vw, hvw⟩ := hm (blockPrefix i ++ ".attention.self.value.weight")
    (by simp [blockMatKeys])
  obtain ⟨vb, hvb⟩ := hv (blockPrefix i ++ ".attention.self.value.bias")
    (by simp [blockVecKeys])
  obtain ⟨cpw, hcpw⟩ := hm (blockPrefix i ++ ".attention.output.dense.weight")
    (by simp [blockMatKeys])
  obtain ⟨cpb, hcpb⟩ := hv (blockPrefix i ++ ".attention.output.dense.bias")
    (by simp [blockVecKeys])
  obtain ⟨ln1g, hln1g⟩ := hv (blockPrefix i ++ ".attention.output.LayerNorm.weight")
    (by simp [blockVecKeys])
  obtain ⟨ln1b, hln1b⟩ := hv (blockPrefix i ++ ".attention.output.LayerNorm.bias")
    (by simp [blockVecKeys])
  obtain ⟨fcw, hfcw⟩ := hm (blockPrefix i ++ ".intermediate.dense.weight")
    (by simp [blockMatKeys])
  obtain ⟨fcb, hfcb⟩ := hv (blockPrefix i ++ ".intermediate.dense.bias")
    (by simp [blockVecKeys])
  obtain ⟨pw, hpw⟩ := hm (blockPrefix i ++ ".output.dense.weight")
    (by simp [blockMatKeys])
  obtain ⟨pb, hpb⟩ := hv (blockPrefix i ++ ".output.dense.bias")
    (by simp [blockVecKeys])
  obtain ⟨ln2g, hln2g⟩ := hv (blockPrefix i ++ ".output.LayerNorm.weight")
    (by simp [blockVecKeys])
  obtain ⟨ln2b, hln2b⟩ := hv (blockPrefix i ++ ".output.LayerNorm.bias")
    (by simp [blockVecKeys])
  refine ⟨{ mlp := { c_fc := { w := transposeM fcw, b := fcb }
                     c_proj := { w := transposeM pw, b := pb } }
            attn := { c_attn := mkCAttn qw kw vw qb kb vb
                      c_proj := { w := transposeM cpw, b := cpb } }
            ln_1 := { g := ln1g, b := ln1b }
            ln_2 := { g := ln2g, b := ln2b } }, ?_⟩
  simp only [mkBlock, (fetchM_ok_iff _ _ _).mpr hqw, (fetchV_ok_iff _ _ _).mpr hqb,
    (fetchM_ok_iff _ _ _).mpr hkw, (fetchV_ok_iff _ _ _).mpr hkb,
    (fetchM_ok_iff _ _ _).mpr hvw, (fetchV_ok_iff _ _ _).mpr hvb,
    (fetchM_ok_iff _ _ _).mpr hcpw, (fetchV_ok_iff _ _ _).mpr hcpb,
    (fetchV_ok_iff _ _ _).mpr hln1g, (fetchV_ok_iff _ _ _).mpr hln1b,
    (fetchM_ok_iff _ _ _).mpr hfcw, (fetchV_ok_iff _ _ _).mpr hfcb,
    (fetchM_ok_iff _ _ _).mpr hpw, (fetchV_ok_iff _ _ _).mpr hpb,
    (fetchV_ok_iff _ _ _).mpr hln2g, (fetchV_ok_iff _ _ _).mpr hln2b,
    except_ok_bind, except_pure_eq_ok]

theorem loader_error_names (s : WeightStore) (e : String)
    (h : load_encoder_hparams_and_params s = Except.error e) :
    (e ∈ expectedMatKeys ∧ s.mats e = none) ∨
    (e ∈ expectedVecKeys ∧ s.vecs e = none) := by
  unfold load_encoder_hparams_and_params at h
  rcases stepM_error _ _ _ _ h with ⟨rfl, hn⟩ | ⟨wte, hwte, h⟩
  · exact Or.inl ⟨by simp [expectedMatKeys], hn⟩
  rcases stepM_error _ _ _ _ h with ⟨rfl, hn⟩ | ⟨wpe, hwpe, h⟩
  · exact Or.inl ⟨by simp [expectedMatKeys], hn⟩
  rcases stepM_error _ _ _ _ h with ⟨rfl, hn⟩ | ⟨wtte, hwtte, h⟩
  · exact Or.inl ⟨by simp [expectedMatKeys], hn⟩
  rcases stepV_error _ _ _ _ h with ⟨rfl, hn⟩ | ⟨ln0g, hln0g, h⟩
  · exact Or.inr ⟨by simp [expectedVecKeys], hn⟩
  rcases stepV_error _ _ _ _ h with ⟨rfl, hn⟩ | ⟨ln0b, hln0b, h⟩
  · exact Or.inr ⟨by simp [expectedVecKeys], hn⟩
  rcases (exceptBind_error _ _ _).mp h with h1 | ⟨blocks, hblocks, h⟩
  · obtain ⟨i, hi, hie⟩ := except_mapM_error _ _ _ h1
    rcases mkBlock_error s i e hie with ⟨hmem, hn⟩ | ⟨hmem, hn⟩
    · refine Or.inl ⟨?_, hn⟩
      unfold expectedMatKeys
      simp only [List.mem_append, List.mem_flatMap]
      exact Or.inl (Or.inr ⟨i, hi, hmem⟩)
    · refine Or.inr ⟨?_, hn⟩
      unfold expectedVecKeys
      simp only [List.mem_append, List.mem_flatMap]
      exact Or.inl (Or.inr ⟨i, hi, hmem⟩)
  rcases stepM_error _ _ _ _ h with ⟨rfl, hn⟩ | ⟨pw, hpw, h⟩
  · exact Or.inl ⟨by simp [expectedMatKeys], hn⟩
  rcases stepV_error _ _ _ _ h with ⟨rfl, hn⟩ | ⟨pb, hpb, h⟩
  · exact Or.inr ⟨by simp [expectedVecKeys], hn⟩
  exact absurd h (by simp [except_pure_eq_ok])

theorem loader_ok_means (s : WeightStore) (hp : Hparams) (pp : Params)
    (h : load_encoder_hparams_and_params s = Except.ok (hp, pp)) :
    (∀ k ∈ expectedMatKeys, s.mats k ≠ none) ∧
    (∀ k ∈ expectedVecKeys, s.vecs k ≠ none) ∧
    hp.n_head = 12 ∧ hp.n_ctx = 1024 ∧ pp.blocks.length = n_layers := by
  unfold load_encoder_hparams_and_params at h
  obtain ⟨wte, hwte, h⟩ := stepM_ok _ _ _ _ h
  obtain ⟨wpe, hwpe, h⟩ := stepM_ok _ _ _ _ h
  obtain ⟨wtte, hwtte, h⟩ := stepM_ok _ _ _ _ h
  obtain ⟨ln0g, hln0g, h⟩ := stepV_ok _ _ _ _ h
  obtain ⟨ln0b, hln0b, h⟩ := stepV_ok _ _ _ _ h
  obtain ⟨blocks, hblocks, h⟩ := (exceptBind_ok _ _ _).mp h
  obtain ⟨pw, hpw, h⟩ := stepM_ok _ _ _ _ h
  obtain ⟨pb, hpb, h⟩ := stepV_ok _ _ _ _ h
  rw [except_pure_eq_ok] at h
  injection h with h'
  have h1 : ({ n_head := 12, n_ctx := 1024 } : Hparams) = hp := congrArg Prod.fst h'
  have h2 : Params.mk (LayerNormParams.mk ln0g ln0b) wte wpe wtte blocks
      (LinearParams.mk (transposeM pw) pb) = pp :=
    congrArg Prod.snd h'
  obtain ⟨hlenb, hall⟩ := except_mapM_ok _ _ _ hblocks
  refine ⟨?_, ?_, ?_, ?_, ?_⟩
  · intro k hk
    unfold expectedMatKeys at hk
    simp only [List.mem_append, List.mem_flatMap, List.mem_cons,
      List.not_mem_nil, or_false] at hk
    rcases hk with ((rfl | rfl | rfl) | ⟨i, hi, hmem⟩) | rfl
    · rw [hwte]; simp
    · rw [hwpe]; simp
    · rw [hwtte]; simp
    · obtain ⟨bk, hbk⟩ := hall i hi
      exact (mkBlock_ok_means s i bk hbk).1 k hmem
    · rw [hpw]; simp
  · intro k hk
    unfold expectedVecKeys at hk
    simp only [List.mem_append, List.mem_flatMap, List.mem_cons,
      List.not_mem_nil, or_false] at hk
    rcases hk with ((rfl | rfl) | ⟨i, hi, hmem⟩) | rfl
    · rw [hln0g]; simp
    · rw [hln0b]; simp
    · obtain ⟨bk, hbk⟩ := hall i hi
      exact (mkBlock_ok_means s i bk hbk).2 k hmem
    · rw [hpb]; simp
  · rw [← h1]
  · rw [← h1]
  · rw [← h2]
    simpa using hlenb

theorem loader_ok_of (s : WeightStore)
    (hm : ∀ k ∈ expectedMatKeys, ∃ x, s.mats k = some x)
    (hv : ∀ k ∈ expectedVecKeys, ∃ x, s.vecs k = some x) :
    ∃ pp, load_encoder_hparams_and_params s =
      Except.ok (⟨12, 1024⟩, pp) ∧ pp.blocks.length = n_layers := by
  obtain ⟨wte, hwte⟩ := hm ("embeddings.word_embeddings.weight")
    (by simp [expectedMatKeys])
  obtain ⟨wpe, hwpe⟩ := hm ("embeddings.position_embeddings.weight")
    (by simp [expectedMatKeys])
  obtain ⟨wtte, hwtte⟩ := hm ("embeddings.token_type_embeddings.weight")
    (by simp [expectedMatKeys])
  obtain ⟨ln0g, hln0g⟩ := hv ("embeddings.LayerNorm.weight")
    (by simp [expectedVecKeys])
  obtain ⟨ln0b, hln0b⟩ := hv ("embeddings.LayerNorm.bias")
    (by simp [expectedVecKeys])
  obtain ⟨pw, hpw⟩ := hm ("pooler.dense.weight") (by simp [expectedMatKeys])
  obtain ⟨pb, hpb⟩ := hv ("pooler.dense.bias") (by simp [expectedVecKeys])
  have hblk : ∀ i ∈ List.range n_layers, ∃ b, mkBlock s i = Except.ok b := by
    intro i hi
    apply mkBlock_ok_of
    · intro k hk
      apply hm
      unfold expectedMatKeys
      simp only [List.mem_append, List.mem_flatMap]
      exact Or.inl (Or.inr ⟨i, hi, hk⟩)
    · intro k hk
      apply hv
      unfold expectedVecKeys
      simp only [List.mem_append, List.mem_flatMap]
      exact Or.inl (Or.inr ⟨i, hi, hk⟩)
  obtain ⟨blocks, hblocks, hlen⟩ := except_mapM_ok_of (mkBlock s)
    (List.range n_layers) hblk
  refine ⟨Params.mk (LayerNormParams.mk ln0g ln0b) wte wpe wtte blocks
    (LinearParams.mk (transposeM pw) pb), ?_, by simp [hlen]⟩
  simp only [load_encoder_hparams_and_params, (fetchM_ok_iff _ _ _).mpr hwte,
    (fetchM_ok_iff _ _ _).mpr hwpe, (fetchM_ok_iff _ _ _).mpr hwtte,
    (fetchV_ok_iff _ _ _).mpr hln0g, (fetchV_ok_iff _ _ _).mpr hln0b,
    hblocks, (fetchM_ok_iff _ _ _).mpr hpw, (fetchV_ok_iff _ _ _).mpr hpb,
    except_ok_bind, except_pure_eq_ok]

/-! ## Claim theorems -/

theorem npSplitCols_shape (x : Mat) (n c : ℕ) (hn : n ≠ 0) (hc : width x = c)
    (hd : n ∣ c) (hrows : ∀ r ∈ x, r.length = c) :
    ∃ cs, npSplitCols x n = some cs ∧ cs.length = n ∧
      ∀ m ∈ cs, m.length = x.length ∧ ∀ r' ∈ m, r'.length = c / n := by
  unfold npSplitCols
  rw [hc, if_pos ⟨hn, hd⟩]
  refine ⟨_, rfl, by simp, ?_⟩
  intro m hm
  obtain ⟨j, hj, rfl⟩ := List.mem_map.mp hm
  refine ⟨by simp, ?_⟩
  intro r' hr'
  obtain ⟨r, hr, rfl⟩ := List.mem_map.mp hr'
  obtain ⟨t, rfl⟩ := hd
  have hnpos : 0 < n := Nat.pos_of_ne_zero hn
  have ht : n * t / n = t := Nat.mul_div_cancel_left t hnpos
  have hjn : j < n := List.mem_range.mp hj
  have hkey : j * t + t ≤ n * t := by
    have h1 : (j + 1) * t ≤ n * t := Nat.mul_le_mul_right t hjn
    calc j * t + t = (j + 1) * t := by ring
    _ ≤ n * t := h1
  simp only [List.length_take, List.length_drop, hrows r hr, ht]
  omega

theorem zipWith3_length_eq {α β γ δ : Type _} (f : α → β → γ → δ) :
    ∀ (as : List α) (bs : List β) (cs : List γ), as.length = bs.length →
      bs.length = cs.length → (zipWith3 f as bs cs).length = as.length
  | [], bs, cs, _, _ => by cases bs <;> cases cs <;> rfl
  | a :: as, [], cs, h1, _ => by simp at h1
  | a :: as, b :: bs, [], _, h2 => by simp at h2
  | a :: as, b :: bs, c :: cs, h1, h2 => by
    simp only [zipWith3, List.length_cons]
    rw [zipWith3_length_eq f as bs cs (by simpa using h1) (by simpa using h2)]

theorem zipWith3_mem {α β γ δ : Type _} (f : α → β → γ → δ) :
    ∀ (as : List α) (bs : List β) (cs : List γ) (d : δ), d ∈ zipWith3 f as bs cs →
      ∃ a ∈ as, ∃ b ∈ bs, ∃ c ∈ cs, d = f a b c
  | [], bs, cs, d => by cases bs <;> cases cs <;> simp [zipWith3]
  | a :: as, [], cs, d => by cases cs <;> simp [zipWith3]
  | a :: as, b :: bs, [], d => by simp [zipWith3]
  | a :: as, b :: bs, c :: cs, d => by
    intro hd
    simp only [zipWith3, List.mem_cons] at hd
    rcases hd with rfl | hd
    · exact ⟨a, by simp, b, by simp, c, by simp, rfl⟩
    · obtain ⟨a', ha, b', hb, c', hc, rfl⟩ := zipWith3_mem f as bs cs _ hd
      exact ⟨a', by simp [ha], b', by simp [hb], c', by simp [hc], rfl⟩

theorem attention_shape (q k v : Mat) (L d : ℕ) (hL : 0 < L) (hd : 0 < d)
    (hq1 : q.length = L) (hq2 : ∀ r ∈ q, r.length = d)
    (hk1 : k.length = L) (hk2 : ∀ r ∈ k, r.length = d)
    (hv1 : v.length = L) (hv2 : ∀ r ∈ v, r.length = d) :
    (attention q k v).length = L ∧ ∀ r ∈ attention q k v, r.length = d := by
  obtain ⟨hf1, hf2⟩ := matmul_shape
    (softmax (divM (matmul q (transposeM k)) (Real.sqrt (width q)))) v L d hv1 hv2 hL
  constructor
  · show (matmul (softmax (divM (matmul q (transposeM k)) (Real.sqrt (width q)))) v).length = L
    rw [hf1]
    simp [softmax, divM, matmul, hq1]
  · intro r hr
    exact hf2 r hr

theorem hstack_foldl_shape (L c : ℕ) :
    ∀ (ms : List Mat) (acc : Mat) (a : ℕ), acc.length = L →
      (∀ r ∈ acc, r.length = a) →
      (∀ m ∈ ms, m.length = L ∧ ∀ r ∈ m, r.length = c) →
      (ms.foldl hstack2 acc).length = L ∧
        ∀ r ∈ ms.foldl hstack2 acc, r.length = a + ms.length * c
  | [], acc, a, h1, h2, _ => ⟨by simpa using h1, by simpa using h2⟩
  | m :: ms, acc, a, h1, h2, hms => by
    have hm := hms m (by simp)
    have hstep1 : (hstack2 acc m).length = L := by
      rw [hstack2_length, h1, hm.1]
      omega
    have hstep2 : ∀ r ∈ hstack2 acc m, r.length = a + c :=
      hstack2_rows acc m a c h2 hm.2
    obtain ⟨r1, r2⟩ := hstack_foldl_shape L c ms (hstack2 acc m) (a + c) hstep1 hstep2
      (fun m' hm' => hms m' (by simp [hm']))
    refine ⟨r1, ?_⟩
    intro r hr
    rw [r2 r hr]
    simp only [List.length_cons]
    ring

theorem hstack_shape (L c : ℕ) (ms : List Mat) (hne : ms ≠ [])
    (hms : ∀ m ∈ ms, m.length = L ∧ ∀ r ∈ m, r.length = c) :
    (hstack ms).length = L ∧ ∀ r ∈ hstack ms, r.length = ms.length * c := by
  cases ms with
  | nil => exact absurd rfl hne
  | cons m ms =>
    have hm := hms m (by simp)
    obtain ⟨r1, r2⟩ := hstack_foldl_shape L c ms m c hm.1 hm.2
      (fun m' hm' => hms m' (by simp [hm']))
    refine ⟨r1, ?_⟩
    intro r hr
    rw [r2 r hr]
    simp only [List.length_cons]
    ring

theorem mha_core (x : Mat) (c_attn c_proj : LinearParams) (n h : ℕ)
    (hL : 0 < x.length) (hx : ∀ r ∈ x, r.length = h) (hh : 0 < h)
    (hca : WSLinear c_attn h (3 * h)) (hn : n ≠ 0) (hdvd : n ∣ h) :
    ∃ heads : List Mat, heads.length = n ∧
      (∀ m ∈ heads, m.length = x.length ∧ ∀ r ∈ m, r.length = h / n) ∧
      mha x c_attn c_proj n =
        some (linear (hstack heads) c_proj.w c_proj.b) := by
  obtain ⟨hca1, hca2, hca3⟩ := hca
  obtain ⟨hx1len, hx1rows⟩ := linear_shape x c_attn.w c_attn.b h (3 * h) hca1 hca2 hca3 hh
  have hx1ne : linear x c_attn.w c_attn.b ≠ [] := by
    intro e
    rw [e] at hx1len
    simp at hx1len
    omega
  have hx1w : width (linear x c_attn.w c_attn.b) = 3 * h := width_eq _ _ hx1ne hx1rows
  obtain ⟨qkv, hqkv, hqkvlen, hqkvP⟩ := npSplitCols_shape (linear x c_attn.w c_attn.b)
    3 (3 * h) (by norm_num) hx1w ⟨h, rfl⟩ hx1rows
  have h3 : 3 * h / 3 = h := Nat.mul_div_cancel_left h (by norm_num)
  obtain ⟨p0, p1, p2, rfl⟩ := List.length_eq_three.mp hqkvlen
  have hp0 := hqkvP p0 (by simp)
  have hp1 := hqkvP p1 (by simp)
  have hp2 := hqkvP p2 (by simp)
  rw [h3] at hp0 hp1 hp2
  have hsplit : ∀ p : Mat, p.length = (linear x c_attn.w c_attn.b).length →
      (∀ r ∈ p, r.length = h) →
      ∃ hs, npSplitCols p n = some hs ∧ hs.length = n ∧
        ∀ m ∈ hs, m.length = x.length ∧ ∀ r' ∈ m, r'.length = h / n := by
    intro p hplen hprows
    have hpne : p ≠ [] := by
      intro e
      rw [e] at hplen
      rw [hx1len] at hplen
      simp at hplen
      omega
    have hpw : width p = h := width_eq p h hpne hprows
    obtain ⟨cs, h1, h2, h3'⟩ := npSplitCols_shape p n h hn hpw hdvd hprows
    exact ⟨cs, h1, h2, fun m hm =>
      ⟨by rw [(h3' m hm).1, hplen, hx1len], (h3' m hm).2⟩⟩
  obtain ⟨hs0, hhs0, hhs0len, hhs0P⟩ := hsplit p0 hp0.1 hp0.2
  obtain ⟨hs1, hhs1, hhs1len, hhs1P⟩ := hsplit p1 hp1.1 hp1.2
  obtain ⟨hs2, hhs2, hhs2len, hhs2P⟩ := hsplit p2 hp2.1 hp2.2
  have hmapm : List.mapM.loop (fun p => npSplitCols p n) [p0, p1, p2] [] =
      some [hs0, hs1, hs2] := by
    simp [List.mapM.loop, hhs0, hhs1, hhs2]
  have hd : 0 < h / n := Nat.div_pos (Nat.le_of_dvd hh hdvd) (Nat.pos_of_ne_zero hn)
  have houtmem : ∀ m ∈ zipWith3 attention hs0 hs1 hs2,
      m.length = x.length ∧ ∀ r ∈ m, r.length = h / n := by
    intro m hm
    obtain ⟨a, ha, b, hb, c, hc, rfl⟩ := zipWith3_mem attention hs0 hs1 hs2 m hm
    obtain ⟨ha1, ha2⟩ := hhs0P a ha
    obtain ⟨hb1, hb2⟩ := hhs1P b hb
    obtain ⟨hc1, hc2⟩ := hhs2P c hc
    exact attention_shape a b c x.length (h / n) hL hd ha1 ha2 hb1 hb2 hc1 hc2
  have houtlen : (zipWith3 attention hs0 hs1 hs2).length = n := by
    rw [zipWith3_length_eq attention hs0 hs1 hs2 (by rw [hhs0len, hhs1len])
      (by rw [hhs1len, hhs2len]), hhs0len]
  refine ⟨zipWith3 attention hs0 hs1 hs2, houtlen, houtmem, ?_⟩
  simp [mha, hqkv, hmapm]

theorem mha_shape (x : Mat) (c_attn c_proj : LinearParams) (n h : ℕ)
    (hL : 0 < x.length) (hx : ∀ r ∈ x, r.length = h) (hh : 0 < h)
    (hca : WSLinear c_attn h (3 * h)) (hcp : WSLinear c_proj h h)
    (hn : n ≠ 0) (hdvd : n ∣ h) :
    ∃ y, mha x c_attn c_proj n = some y ∧ y.length = x.length ∧
      ∀ r ∈ y, r.length = h := by
  obtain ⟨heads, hheadlen, hheadmem, heq⟩ := mha_core x c_attn c_proj n h hL hx hh hca hn hdvd
  obtain ⟨hcp1, hcp2, hcp3⟩ := hcp
  have hne : heads ≠ [] := by
    intro e
    rw [e] at hheadlen
    simp at hheadlen
    omega
  obtain ⟨hst1, hst2⟩ := hstack_shape x.length (h / n) heads hne hheadmem
  obtain ⟨hflen, hfrows⟩ := linear_shape (hstack heads) c_proj.w c_proj.b h h
    hcp1 hcp2 hcp3 hh
  exact ⟨_, heq, by rw [hflen, hst1], hfrows⟩

theorem mha_split_fail (x : Mat) (c_attn c_proj : LinearParams) (n h : ℕ)
    (hL : 0 < x.length) (hx : ∀ r ∈ x, r.length = h) (hh : 0 < h)
    (hca : WSLinear c_attn h (3 * h)) (hn : n ≠ 0) (hnd : ¬ n ∣ h) :
    mha x c_attn c_proj n = none := by
  obtain ⟨hca1, hca2, hca3⟩ := hca
  obtain ⟨hx1len, hx1rows⟩ := linear_shape x c_attn.w c_attn.b h (3 * h) hca1 hca2 hca3 hh
  have hx1ne : linear x c_attn.w c_attn.b ≠ [] := by
    intro e
    rw [e] at hx1len
    simp at hx1len
    omega
  have hx1w : width (linear x c_attn.w c_attn.b) = 3 * h := width_eq _ _ hx1ne hx1rows
  obtain ⟨qkv, hqkv, hqkvlen, hqkvP⟩ := npSplitCols_shape (linear x c_attn.w c_attn.b)
    3 (3 * h) (by norm_num) hx1w ⟨h, rfl⟩ hx1rows
  have h3 : 3 * h / 3 = h := Nat.mul_div_cancel_left h (by norm_num)
  obtain ⟨p0, p1, p2, rfl⟩ := List.length_eq_three.mp hqkvlen
  have hp0 := hqkvP p0 (by simp)
  rw [h3] at hp0
  have hp0ne : p0 ≠ [] := by
    intro e
    rw [e] at hp0
    rw [hx1len] at hp0
    simp at hp0
    omega
  have hp0w : width p0 = h := width_eq p0 h hp0ne hp0.2
  have hfail : npSplitCols p0 n = none := by
    unfold npSplitCols
    rw [hp0w, if_neg]
    intro hcontra
    exact hnd hcontra.2
  simp [mha, hqkv, hfail, List.mapM, List.mapM.loop]

theorem addM_shape (a b : Mat) (L h : ℕ) (ha1 : a.length = L)
    (ha2 : ∀ r ∈ a, r.length = h) (hb1 : b.length = L)
    (hb2 : ∀ r ∈ b, r.length = h) :
    (addM a b).length = L ∧ ∀ r ∈ addM a b, r.length = h := by
  constructor
  · unfold addM
    rw [List.length_zipWith, ha1, hb1]
    omega
  · intro r hr
    obtain ⟨u, hu, v, hv, rfl⟩ := mem_zipWith' addVec a b r hr
    unfold addVec
    rw [List.length_zipWith, ha2 u hu, hb2 v hv]
    omega

theorem layerNormRow_length (r g b : Vec) (h : ℕ) (hg : g.length = h)
    (hr : r.length = h) (hb : b.length = h) : (layerNormRow r g b).length = h := by
  simp only [layerNormRow]
  rw [zipWith3_length_eq _ g r b (by rw [hg, hr]) (by rw [hr, hb]), hg]

theorem layer_norm_shape (x : Mat) (g b : Vec) (h : ℕ) (hg : g.length = h)
    (hb : b.length = h) (hx : ∀ r ∈ x, r.length = h) :
    (layer_norm x g b).length = x.length ∧ ∀ r ∈ layer_norm x g b, r.length = h := by
  constructor
  · simp [layer_norm]
  · intro r hr
    obtain ⟨r0, hr0, rfl⟩ := List.mem_map.mp hr
    exact layerNormRow_length r0 g b h hg (hx r0 hr0) hb

theorem gelu_shape (x : Mat) :
    (gelu x).length = x.length ∧ ∀ r ∈ gelu x, ∃ r0 ∈ x, r.length = r0.length := by
  constructor
  · simp [gelu]
  · intro r hr
    obtain ⟨r0, hr0, rfl⟩ := List.mem_map.mp hr
    exact ⟨r0, hr0, by simp⟩

theorem ffn_shape (x : Mat) (c_fc c_proj : LinearParams) (h d : ℕ)
    (hfc : WSLinear c_fc h d) (hpr : WSLinear c_proj d h) (hh : 0 < h)
    (hd : 0 < d) :
    (ffn x c_fc c_proj).length = x.length ∧ ∀ r ∈ ffn x c_fc c_proj, r.length = h := by
  obtain ⟨hfc1, hfc2, hfc3⟩ := hfc
  obtain ⟨hpr1, hpr2, hpr3⟩ := hpr
  obtain ⟨hi1, hi2⟩ := linear_shape x c_fc.w c_fc.b h d hfc1 hfc2 hfc3 hh
  obtain ⟨hg1, hg2⟩ := gelu_shape (linear x c_fc.w c_fc.b)
  obtain ⟨ho1, ho2⟩ := linear_shape (gelu (linear x c_fc.w c_fc.b)) c_proj.w c_proj.b
    d h hpr1 hpr2 hpr3 hd
  exact ⟨by rw [show ffn x c_fc c_proj =
      linear (gelu (linear x c_fc.w c_fc.b)) c_proj.w c_proj.b from rfl, ho1, hg1, hi1],
    ho2⟩

theorem transformer_block_shape (x : Mat) (blk : BlockParams) (n h : ℕ)
    (hL : 0 < x.length) (hx : ∀ r ∈ x, r.length = h) (hh : 0 < h)
    (hblk : WSBlock blk h) (hn : n ≠ 0) (hdvd : n ∣ h) :
    ∃ y, transformer_block x blk.mlp blk.attn blk.ln_1 blk.ln_2 n = some y ∧
      y.length = x.length ∧ ∀ r ∈ y, r.length = h := by
  obtain ⟨hca, hcp, hln1g, hln1b, ⟨d, hd, hfc, hpr⟩, hln2g, hln2b⟩ := hblk
  obtain ⟨a, ha, halen, harows⟩ := mha_shape x blk.attn.c_attn blk.attn.c_proj n h
    hL hx hh hca hcp hn hdvd
  obtain ⟨hs1len, hs1rows⟩ := addM_shape x a x.length h rfl hx halen harows
  obtain ⟨hl1len, hl1rows⟩ := layer_norm_shape (addM x a) blk.ln_1.g blk.ln_1.b h
    hln1g hln1b hs1rows
  obtain ⟨hf1, hf2⟩ := ffn_shape (layer_norm (addM x a) blk.ln_1.g blk.ln_1.b)
    blk.mlp.c_fc blk.mlp.c_proj h d hfc hpr hh hd
  obtain ⟨hs2len, hs2rows⟩ := addM_shape (layer_norm (addM x a) blk.ln_1.g blk.ln_1.b)
    (ffn (layer_norm (addM x a) blk.ln_1.g blk.ln_1.b) blk.mlp.c_fc blk.mlp.c_proj)
    (layer_norm (addM x a) blk.ln_1.g blk.ln_1.b).length h rfl hl1rows
    (by rw [hf1]) hf2
  obtain ⟨hl2len, hl2rows⟩ := layer_norm_shape
    (addM (layer_norm (addM x a) blk.ln_1.g blk.ln_1.b)
      (ffn (layer_norm (addM x a) blk.ln_1.g blk.ln_1.b) blk.mlp.c_fc blk.mlp.c_proj))
    blk.ln_2.g blk.ln_2.b h hln2g hln2b hs2rows
  refine ⟨_, ?_, ?_, hl2rows⟩
  · simp [transformer_block, ha]
  · rw [hl2len, hs2len, hl1len, hs1len]

theorem foldlM_blocks_shape (n h : ℕ) (hn : n ≠ 0) (hh : 0 < h) (hdvd : n ∣ h) :
    ∀ (blocks : List BlockParams) (x : Mat), 0 < x.length →
      (∀ r ∈ x, r.length = h) → (∀ b ∈ blocks, WSBlock b h) →
      ∃ y, blocks.foldlM (fun acc blk =>
          transformer_block acc blk.mlp blk.attn blk.ln_1 blk.ln_2 n) x = some y ∧
        y.length = x.length ∧ ∀ r ∈ y, r.length = h
  | [], x, hL, hx, _ => ⟨x, by simp, rfl, hx⟩
  | blk :: blocks, x, hL, hx, hbs => by
    obtain ⟨y1, hy1, hy1len, hy1rows⟩ := transformer_block_shape x blk n h hL hx hh
      (hbs blk (by simp)) hn hdvd
    obtain ⟨y, hy, hylen, hyrows⟩ := foldlM_blocks_shape n h hn hh hdvd blocks y1
      (by rw [hy1len]; exact hL) hy1rows (fun b hb => hbs b (by simp [hb]))
    refine ⟨y, ?_, by rw [hylen, hy1len], hyrows⟩
    rw [List.foldlM_cons, hy1]
    simpa using hy

theorem npIndex_nonneg (t : Mat) (i : ℤ) (h0 : 0 ≤ i) (hlt : i < (t.length : ℤ)) :
    npIndex t i = some (t.getD i.toNat []) := by
  unfold npIndex
  rw [if_neg (by omega : ¬ i < 0)]
  rw [if_pos ⟨h0, hlt⟩]
  have hn : i.toNat < t.length := by omega
  rw [List.getElem?_eq_getElem hn, List.getD_eq_getElem t [] hn]

theorem option_mapM_map {α β : Type _} (f : α → Option β) (g : α → β) :
    ∀ l : List α, (∀ a ∈ l, f a = some (g a)) → l.mapM f = some (l.map g)
  | [], _ => by simp [List.mapM, List.mapM.loop]
  | a :: l, hl => by
    rw [List.mapM_cons, hl a (by simp),
      option_mapM_map f g l (fun a' ha' => hl a' (by simp [ha']))]
    rfl

theorem range_map_getD {α : Type _} (d : α) :
    ∀ (l : List α) (n : ℕ), n ≤ l.length →
      (List.range n).map (fun i => l.getD i d) = l.take n
  | l, 0, _ => by simp
  | [], n + 1, hle => by simp at hle
  | a :: l, n + 1, hle => by
    rw [List.range_succ_eq_map, List.map_cons, List.map_map, List.take_succ_cons]
    rw [show ((fun i => (a :: l).getD i d) ∘ Nat.succ) = (fun i => l.getD i d) from
      funext (fun i => rfl)]
    rw [range_map_getD d l n (by simpa using hle)]
    rfl

theorem linear_hstack2 (x A B : Mat) (b1 b2 : Vec) (p q : ℕ)
    (hlen : A.length = B.length) (hA : ∀ r ∈ A, r.length = p)
    (hB : ∀ r ∈ B, r.length = q) (hAne : A ≠ [])
    (hb1 : ∀ r ∈ matmul x A, r.length = b1.length) :
    linear x (hstack2 A B) (b1 ++ b2) = hstack2 (linear x A b1) (linear x B b2) := by
  unfold linear
  rw [matmul_hstack2 x A B p q hlen hA hB hAne]
  exact addBias_hstack2 _ _ _ _ hb1

/-- C4: the loader's fused `c_attn` — query, key, value weights each
transposed from storage convention `[out_dim, in_dim]` to
`[in_dim, out_dim]` and concatenated along the output-feature axis, with
the biases concatenated — is equivalent to the three original layers: the
single fused linear pass, split into three equal chunks, yields exactly
`x @ q.w.T + q.b`, `x @ k.w.T + k.b` and `x @ v.w.T + v.b`. -/
theorem C4_qkv_fusion (x qw kw vw : Mat) (qb kb vb : Vec) (h : ℕ)
    (hh : 0 < h) (hx : 0 < x.length)
    (hqw : qw.length = h) (hqw2 : ∀ r ∈ qw, r.length = h)
    (hkw : kw.length = h) (hkw2 : ∀ r ∈ kw, r.length = h)
    (hvw : vw.length = h) (hvw2 : ∀ r ∈ vw, r.length = h)
    (hqb : qb.length = h) (hkb : kb.length = h) (hvb : vb.length = h) :
    npSplitCols
        (linear x (mkCAttn qw kw vw qb kb vb).w (mkCAttn qw kw vw qb kb vb).b) 3 =
      some [linear x (transposeM qw) qb, linear x (transposeM kw) kb,
        linear x (transposeM vw) vb] := by
  obtain ⟨htq1, htq2⟩ := transposeM_shape qw h h hqw hqw2 hh
  obtain ⟨htk1, htk2⟩ := transposeM_shape kw h h hkw hkw2 hh
  obtain ⟨htv1, htv2⟩ := transposeM_shape vw h h hvw hvw2 hh
  have htqne : transposeM qw ≠ [] := by
    intro e
    rw [e] at htq1
    simp at htq1
    omega
  have htkne : transposeM kw ≠ [] := by
    intro e
    rw [e] at htk1
    simp at htk1
    omega
  have hKVlen : (hstack2 (transposeM kw) (transposeM vw)).length = h := by
    rw [hstack2_length, htk1, htv1]
    omega
  have hKVrows : ∀ r ∈ hstack2 (transposeM kw) (transposeM vw), r.length = h + h :=
    hstack2_rows (transposeM kw) (transposeM vw) h h htk2 htv2
  have hw : (mkCAttn qw kw vw qb kb vb).w =
      hstack2 (transposeM qw) (hstack2 (transposeM kw) (transposeM vw)) := by
    show hstack [transposeM qw, transposeM kw, transposeM vw] = _
    rw [show hstack [transposeM qw, transposeM kw, transposeM vw] =
        hstack2 (hstack2 (transposeM qw) (transposeM kw)) (transposeM vw) from rfl]
    exact hstack2_assoc _ _ _
  have hb : (mkCAttn qw kw vw qb kb vb).b = qb ++ (kb ++ vb) := rfl
  obtain ⟨hm1len, hm1rows⟩ := matmul_shape x (transposeM qw) h h htq1 htq2 hh
  obtain ⟨hm2len, hm2rows⟩ := matmul_shape x (transposeM kw) h h htk1 htk2 hh
  rw [hw, hb]
  rw [linear_hstack2 x (transposeM qw) (hstack2 (transposeM kw) (transposeM vw))
    qb (kb ++ vb) h (h + h) (by rw [htq1, hKVlen]) htq2 hKVrows htqne
    (by intro r hr; rw [hqb]; exact hm1rows r hr)]
  rw [linear_hstack2 x (transposeM kw) (transposeM vw) kb vb h h
    (by rw [htk1, htv1]) htk2 htv2 htkne
    (by intro r hr; rw [hkb]; exact hm2rows r hr)]
  obtain ⟨hl1len, hl1rows⟩ := linear_shape x (transposeM qw) qb h h htq1 htq2 hqb hh
  obtain ⟨hl2len, hl2rows⟩ := linear_shape x (transposeM kw) kb h h htk1 htk2 hkb hh
  obtain ⟨hl3len, hl3rows⟩ := linear_shape x (transposeM vw) vb h h htv1 htv2 hvb hh
  exact npSplitCols_three _ _ _ h (by rw [hl1len]; exact hx)
    (by rw [hl1len, hl2len]) (by rw [hl2len, hl3len]) hl1rows hl2rows hl3rows

theorem C4_qkv_fusion_witness :
    npSplitCols
        (linear [[(2 : ℝ)]] (mkCAttn [[3]] [[4]] [[5]] [1] [1] [1]).w
          (mkCAttn [[(3 : ℝ)]] [[4]] [[5]] [1] [1] [1]).b) 3 =
      some [linear [[(2 : ℝ)]] (transposeM [[3]]) [1],
        linear [[(2 : ℝ)]] (transposeM [[4]]) [1],
        linear [[(2 : ℝ)]] (transposeM [[5]]) [1]] :=
  C4_qkv_fusion [[(2 : ℝ)]] [[3]] [[4]] [[5]] [1] [1] [1] 1 (by norm_num)
    (by simp) (by simp) (by simp) (by simp) (by simp) (by simp) (by simp)
    (by simp) (by simp) (by simp)

/-- C1: for every valid TokenSequence (equal nonzero length `L`, token ids
within the vocabulary, segment ids in `{0, 1}`, `L` within the position
table), the encoder pipeline computes the initial representation as the
elementwise sum of the token-embedding rows at `token_ids`, the
position-embedding rows `0..L-1` and the segment-embedding rows at
`segment_ids`, applies the input layer norm, applies the blocks
sequentially in order (a left fold), and returns an `[L, hidden_dim]`
matrix.  The first conjunct holds for every pooler parameter and its right
side never mentions the pooler: the pooler projection is not applied. -/
theorem C1_encoder_pipeline (inputs segment_ids : List ℤ) (wte wpe wtte : Mat)
    (ln_0 : LayerNormParams) (blocks : List BlockParams) (pooler : LinearParams)
    (n_head L h : ℕ)
    (hlen : inputs.length = L) (hslen : segment_ids.length = L) (hL : 0 < L)
    (hctx : L ≤ wpe.length)
    (htok : ∀ i ∈ inputs, 0 ≤ i ∧ i < (wte.length : ℤ))
    (hseg : ∀ sid ∈ segment_ids, sid = 0 ∨ sid = 1)
    (hwtte_len : wtte.length = 2)
    (hwte : ∀ r ∈ wte, r.length = h) (hwpe : ∀ r ∈ wpe, r.length = h)
    (hwtte : ∀ r ∈ wtte, r.length = h)
    (hln0g : ln_0.g.length = h) (hln0b : ln_0.b.length = h)
    (hh : 0 < h) (hn : n_head ≠ 0) (hdvd : n_head ∣ h)
    (hblocks : ∀ b ∈ blocks, WSBlock b h) :
    (∀ pl : LinearParams,
      bert inputs segment_ids wte wpe wtte ln_0 blocks pl n_head =
      blocks.foldlM (fun acc blk =>
          transformer_block acc blk.mlp blk.attn blk.ln_1 blk.ln_2 n_head)
        (layer_norm (addM (addM (inputs.map (fun i => wte.getD i.toNat []))
            (wpe.take L)) (segment_ids.map (fun sid => wtte.getD sid.toNat [])))
          ln_0.g ln_0.b)) ∧
    ∃ y, bert inputs segment_ids wte wpe wtte ln_0 blocks pooler n_head = some y ∧
      y.length = L ∧ ∀ r ∈ y, r.length = h := by
  have hte : inputs.mapM (npIndex wte) =
      some (inputs.map (fun i => wte.getD i.toNat [])) :=
    option_mapM_map _ _ inputs
      (fun i hi => npIndex_nonneg wte i (htok i hi).1 (htok i hi).2)
  have hpe : (List.range inputs.length).mapM (fun n : ℕ => npIndex wpe (n : ℤ)) =
      some (wpe.take L) := by
    have h1 : (List.range inputs.length).mapM (fun n : ℕ => npIndex wpe (n : ℤ)) =
        some ((List.range inputs.length).map
          (fun n : ℕ => wpe.getD ((n : ℤ)).toNat [])) :=
      option_mapM_map _ _ _ (fun n hn' => npIndex_nonneg wpe ((n : ℕ) : ℤ)
        (by exact_mod_cast Nat.zero_le n)
        (by
          have hm := List.mem_range.mp hn'
          have hlt : n < wpe.length := by omega
          exact_mod_cast hlt))
    rw [h1]
    congr 1
    rw [show (fun n : ℕ => wpe.getD ((n : ℤ)).toNat []) =
        fun n : ℕ => wpe.getD n [] from funext (fun n => rfl)]
    rw [hlen]
    exact range_map_getD [] wpe L hctx
  have hse : segment_ids.mapM (npIndex wtte) =
      some (segment_ids.map (fun sid => wtte.getD sid.toNat [])) :=
    option_mapM_map _ _ segment_ids (fun sid hs => npIndex_nonneg wtte sid
      (by rcases hseg sid hs with rfl | rfl <;> norm_num)
      (by rcases hseg sid hs with rfl | rfl <;> rw [hwtte_len] <;> norm_num))
  have hEq : ∀ pl : LinearParams,
      bert inputs segment_ids wte wpe wtte ln_0 blocks pl n_head =
      blocks.foldlM (fun acc blk =>
          transformer_block acc blk.mlp blk.attn blk.ln_1 blk.ln_2 n_head)
        (layer_norm (addM (addM (inputs.map (fun i => wte.getD i.toNat []))
            (wpe.take L)) (segment_ids.map (fun sid => wtte.getD sid.toNat [])))
          ln_0.g ln_0.b) := by
    intro pl
    have hteL : List.mapM.loop (npIndex wte) inputs [] =
        some (inputs.map (fun i => wte.getD i.toNat [])) := hte
    have hpeL : List.mapM.loop (fun n : ℕ => npIndex wpe (n : ℤ))
        (List.range inputs.length) [] = some (wpe.take L) := hpe
    have hseL : List.mapM.loop (npIndex wtte) segment_ids [] =
        some (segment_ids.map (fun sid => wtte.getD sid.toNat [])) := hse
    simp [bert, hteL, hpeL, hseL]
  have hte_len : (inputs.map (fun i => wte.getD i.toNat [])).length = L := by
    simp [hlen]
  have hte_rows : ∀ r ∈ inputs.map (fun i => wte.getD i.toNat []), r.length = h := by
    intro r hr
    obtain ⟨i, hi, rfl⟩ := List.mem_map.mp hr
    have h1 : i.toNat < wte.length := by
      have := htok i hi
      omega
    rw [List.getD_eq_getElem wte [] h1]
    exact hwte _ (List.getElem_mem h1)
  have hpe_len : (wpe.take L).length = L := by
    rw [List.length_take]
    omega
  have hpe_rows : ∀ r ∈ wpe.take L, r.length = h := fun r hr =>
    hwpe r (List.take_subset _ _ hr)
  have hse_len : (segment_ids.map (fun sid => wtte.getD sid.toNat [])).length = L := by
    simp [hslen]
  have hse_rows : ∀ r ∈ segment_ids.map (fun sid => wtte.getD sid.toNat []),
      r.length = h := by
    intro r hr
    obtain ⟨sid, hs, rfl⟩ := List.mem_map.mp hr
    have h1 : sid.toNat < wtte.length := by
      rcases hseg sid hs with rfl | rfl <;> rw [hwtte_len] <;> norm_num
    rw [List.getD_eq_getElem wtte [] h1]
    exact hwtte _ (List.getElem_mem h1)
  obtain ⟨ha1len, ha1rows⟩ := addM_shape _ _ L h hte_len hte_rows hpe_len hpe_rows
  obtain ⟨ha2len, ha2rows⟩ := addM_shape _ _ L h ha1len ha1rows hse_len hse_rows
  obtain ⟨hlnlen, hlnrows⟩ := layer_norm_shape _ ln_0.g ln_0.b h hln0g hln0b ha2rows
  obtain ⟨y, hy, hylen, hyrows⟩ := foldlM_blocks_shape n_head h hn hh hdvd blocks _
    (by rw [hlnlen, ha2len]; exact hL) hlnrows hblocks
  refine ⟨hEq, y, ?_, ?_, hyrows⟩
  · rw [hEq pooler]
    exact hy
  · rw [hylen, hlnlen, ha2len]

theorem C1_encoder_pipeline_witness :
    (∀ pl : LinearParams,
      bert [0] [0] [[(1 : ℝ)]] [[0]] [[0], [0]] ⟨[1], [0]⟩ [] pl 1 =
      ([] : List BlockParams).foldlM (fun acc blk =>
          transformer_block acc blk.mlp blk.attn blk.ln_1 blk.ln_2 1)
        (layer_norm (addM (addM (([0] : List ℤ).map
              (fun i => ([[(1 : ℝ)]] : Mat).getD i.toNat []))
            (([[(0 : ℝ)]] : Mat).take 1))
            (([0] : List ℤ).map (fun sid => ([[(0 : ℝ)], [0]] : Mat).getD sid.toNat [])))
          [1] [0])) ∧
    ∃ y, bert [0] [0] [[(1 : ℝ)]] [[0]] [[0], [0]] ⟨[1], [0]⟩ [] ⟨[], []⟩ 1 = some y ∧
      y.length = 1 ∧ ∀ r ∈ y, r.length = 1 :=
  C1_encoder_pipeline [0] [0] [[(1 : ℝ)]] [[0]] [[0], [0]] ⟨[1], [0]⟩ [] ⟨[], []⟩
    1 1 1 rfl rfl (by norm_num) (by norm_num)
    (by intro i hi; simp at hi; subst hi; norm_num)
    (by intro sid hs; simp at hs; subst hs; norm_num)
    rfl (by simp) (by simp) (by simp) rfl rfl
    (by norm_num) (by norm_num) (one_dvd 1) (by simp)

/-- C2: for every input of shape `[seq_len, hidden_dim]` with `hidden_dim`
divisible by `num_heads`, multi-head attention — the fused qkv projection,
the split into Q, K, V and into heads, per-head unmasked
`softmax(Q Kᵗ / sqrt(head_dim)) V` (the definition of `attention`),
concatenation and output projection — succeeds, and the output shape equals
the input shape `[seq_len, hidden_dim]`. -/
theorem C2_mha_output_shape (x : Mat) (c_attn c_proj : LinearParams)
    (n_head hidden : ℕ) (hL : 0 < x.length) (hx : ∀ r ∈ x, r.length = hidden)
    (hh : 0 < hidden) (hca : WSLinear c_attn hidden (3 * hidden))
    (hcp : WSLinear c_proj hidden hidden) (hn : n_head ≠ 0)
    (hdvd : n_head ∣ hidden) :
    ∃ y, mha x c_attn c_proj n_head = some y ∧ y.length = x.length ∧
      ∀ r ∈ y, r.length = hidden :=
  mha_shape x c_attn c_proj n_head hidden hL hx hh hca hcp hn hdvd

theorem C2_mha_output_shape_witness :
    ∃ y, mha [[(1 : ℝ)]] ⟨[[0, 0, 0]], [0, 0, 0]⟩ ⟨[[0]], [0]⟩ 1 = some y ∧
      y.length = ([[(1 : ℝ)]] : Mat).length ∧ ∀ r ∈ y, r.length = 1 :=
  C2_mha_output_shape [[(1 : ℝ)]] ⟨[[0, 0, 0]], [0, 0, 0]⟩ ⟨[[0]], [0]⟩ 1 1
    (by norm_num) (by simp) (by norm_num) (by norm_num [WSLinear])
    (by norm_num [WSLinear]) (by norm_num) (one_dvd 1)

/-- C8: splitting Q, K, V across heads fails exactly when `hidden_dim` is
not divisible by `num_heads`: on any width-`hidden` matrix the split is
`none` iff `n_head` does not divide `hidden` (in which case `mha` as a
whole fails), and under divisibility the split succeeds with `n_head`
equal chunks of width `hidden / n_head` (and `mha` succeeds). -/
theorem C8_head_split_divisibility (x : Mat) (c_attn c_proj : LinearParams)
    (n_head hidden : ℕ) (hL : 0 < x.length) (hx : ∀ r ∈ x, r.length = hidden)
    (hh : 0 < hidden) (hca : WSLinear c_attn hidden (3 * hidden)) (hn : n_head ≠ 0) :
    (∀ p : Mat, width p = hidden →
      ((npSplitCols p n_head).isSome = true ↔ n_head ∣ hidden)) ∧
    (∀ p : Mat, width p = hidden → (∀ r ∈ p, r.length = hidden) →
      n_head ∣ hidden →
      ∃ cs, npSplitCols p n_head = some cs ∧ cs.length = n_head ∧
        ∀ m ∈ cs, m.length = p.length ∧ ∀ r ∈ m, r.length = hidden / n_head) ∧
    (¬ n_head ∣ hidden → mha x c_attn c_proj n_head = none) ∧
    (n_head ∣ hidden → (mha x c_attn c_proj n_head).isSome = true) := by
  refine ⟨?_, ?_, ?_, ?_⟩
  · intro p hp
    unfold npSplitCols
    rw [hp]
    by_cases hdvd : n_head ∣ hidden
    · rw [if_pos ⟨hn, hdvd⟩]
      simp [hdvd]
    · rw [if_neg (fun hc => hdvd hc.2)]
      simp [hdvd]
  · intro p hp hrows hdvd
    exact npSplitCols_shape p n_head hidden hn hp hdvd hrows
  · intro hnd
    exact mha_split_fail x c_attn c_proj n_head hidden hL hx hh hca hn hnd
  · intro hdvd
    obtain ⟨heads, _, _, heq⟩ := mha_core x c_attn c_proj n_head hidden hL hx hh
      hca hn hdvd
    rw [heq]
    rfl

theorem C8_head_split_divisibility_witness :
    (∀ p : Mat, width p = 1 →
      ((npSplitCols p 1).isSome = true ↔ 1 ∣ 1)) ∧
    (∀ p : Mat, width p = 1 → (∀ r ∈ p, r.length = 1) → 1 ∣ 1 →
      ∃ cs, npSplitCols p 1 = some cs ∧ cs.length = 1 ∧
        ∀ m ∈ cs, m.length = p.length ∧ ∀ r ∈ m, r.length = 1 / 1) ∧
    (¬ (1 : ℕ) ∣ 1 → mha [[(1 : ℝ)]] ⟨[[0, 0, 0]], [0, 0, 0]⟩ ⟨[[0]], [0]⟩ 1 = none) ∧
    ((1 : ℕ) ∣ 1 →
      (mha [[(1 : ℝ)]] ⟨[[0, 0, 0]], [0, 0, 0]⟩ ⟨[[0]], [0]⟩ 1).isSome = true) :=
  C8_head_split_divisibility [[(1 : ℝ)]] ⟨[[0, 0, 0]], [0, 0, 0]⟩ ⟨[[0]], [0]⟩ 1 1
    (by norm_num) (by simp) (by norm_num) (by norm_num [WSLinear]) (by norm_num)

/-- C5: `softmax` subtracts the per-row maximum along the last axis before
exponentiating (this is the definition of `softmaxRow`, translated from the
source) and normalizes by the row sum; for every input whose rows are
nonempty, every row of the output sums to 1 and has all entries ≥ 0. -/
theorem C5_softmax_row_stochastic (x : Mat) (hx : ∀ r ∈ x, r ≠ []) :
    ∀ p ∈ softmax x, p.sum = 1 ∧ ∀ a ∈ p, 0 ≤ a := by
  intro p hp
  obtain ⟨r, hr, rfl⟩ := List.mem_map.mp hp
  exact softmaxRow_sum_one r (hx r hr)

theorem C5_softmax_row_stochastic_witness :
    ((softmax [[(0 : ℝ), 0]]).headD []).sum = 1 ∧
    ∀ a ∈ (softmax [[(0 : ℝ), 0]]).headD [], 0 ≤ a :=
  C5_softmax_row_stochastic [[(0 : ℝ), 0]] (by simp) (softmaxRow [0, 0])
    (by simp [softmax])

/-- C6: for every nonempty input whose mean-pooled vector is nonzero, the
embedding finalizer returns the columnwise mean divided by its own Euclidean
norm, and the result has Euclidean norm 1. -/
theorem C6_finalizer_unit_norm (x : Mat) (hx : x ≠ [])
    (hnz : l2norm (npMeanAxis0 x) ≠ 0) :
    mean_pooling_and_normalization x =
      (npMeanAxis0 x).map (fun a => a / l2norm (npMeanAxis0 x)) ∧
    l2norm (mean_pooling_and_normalization x) = 1 := by
  refine ⟨rfl, ?_⟩
  have hne : ((npMeanAxis0 x).map (fun b => b ^ 2)).sum ≠ 0 := by
    intro h0
    apply hnz
    unfold l2norm
    rw [h0, Real.sqrt_zero]
  exact unit_norm_aux (npMeanAxis0 x) hne

theorem C6_finalizer_unit_norm_witness :
    mean_pooling_and_normalization [[(1 : ℝ), 0]] =
      (npMeanAxis0 [[(1 : ℝ), 0]]).map (fun a => a / l2norm (npMeanAxis0 [[(1 : ℝ), 0]])) ∧
    l2norm (mean_pooling_and_normalization [[(1 : ℝ), 0]]) = 1 :=
  C6_finalizer_unit_norm [[(1 : ℝ), 0]] (by simp)
    (by norm_num [l2norm, npMeanAxis0, transposeM, width, List.range_succ, Real.sqrt_one])

/-- C7 (code evidence): mean-pooling `[[1,0],[-1,0]]` does yield the zero
vector, but the code then divides by the zero norm and returns a value: no
`InvalidInputError` is raised anywhere (the function has no error path at
all; numpy emits NaN, in the embedding division by zero yields 0). -/
theorem C7_zero_vector_silent :
    npMeanAxis0 [[(1 : ℝ), 0], [-1, 0]] = [0, 0] ∧
    mean_pooling_and_normalization [[(1 : ℝ), 0], [-1, 0]] = [0, 0] := by
  constructor
  · norm_num [npMeanAxis0, transposeM, width, List.range_succ]
  · norm_num [mean_pooling_and_normalization, npMeanAxis0, transposeM, width, l2norm,
      List.range_succ]

/-- C3: whenever the attention sub-layer succeeds, the transformer block
computes `layer_norm(x + mha(x), ln_1)` followed by
`layer_norm(x' + ffn(x'), ln_2)` — layer normalization applied after each
residual addition (post-norm).  The block is a pure function of its
arguments, so it holds no state across invocations. -/
theorem C3_transformer_block_post_norm (x : Mat) (mlp : MlpParams)
    (attn : AttnParams) (ln_1 ln_2 : LayerNormParams) (n_head : ℕ) (a : Mat)
    (h : mha x attn.c_attn attn.c_proj n_head = some a) :
    transformer_block x mlp attn ln_1 ln_2 n_head =
      some (layer_norm
        (addM (layer_norm (addM x a) ln_1.g ln_1.b)
          (ffn (layer_norm (addM x a) ln_1.g ln_1.b) mlp.c_fc mlp.c_proj))
        ln_2.g ln_2.b) := by
  simp [transformer_block, h]

theorem C3_transformer_block_post_norm_witness :
    transformer_block [[]] ⟨⟨[], []⟩, ⟨[], []⟩⟩ ⟨⟨[], []⟩, ⟨[], []⟩⟩
        ⟨[], []⟩ ⟨[], []⟩ 1 =
      some (layer_norm
        (addM (layer_norm (addM [[]] [[]]) [] [])
          (ffn (layer_norm (addM [[]] [[]]) [] []) ⟨[], []⟩ ⟨[], []⟩))
        [] []) :=
  C3_transformer_block_post_norm [[]] ⟨⟨[], []⟩, ⟨[], []⟩⟩ ⟨⟨[], []⟩, ⟨[], []⟩⟩
    ⟨[], []⟩ ⟨[], []⟩ 1 [[]] rfl

/-- C9: the parameter tree builder fails with an error naming the missing
key whenever any expected named tensor is absent from the weight store;
the failure happens in the loader itself (before any encoding can run).
When every expected name is present it succeeds, returning the parameter
tree with the declared hyperparameters `n_head = 12`, `n_ctx = 1024` and
the fixed `n_layers = 6` blocks. -/
theorem C9_loader_missing_parameter (s : WeightStore) :
    (∀ e, load_encoder_hparams_and_params s = Except.error e →
      (e ∈ expectedMatKeys ∧ s.mats e = none) ∨
      (e ∈ expectedVecKeys ∧ s.vecs e = none)) ∧
    (((∃ k ∈ expectedMatKeys, s.mats k = none) ∨
      (∃ k ∈ expectedVecKeys, s.vecs k = none)) →
      ∃ e, load_encoder_hparams_and_params s = Except.error e) ∧
    ((∀ k ∈ expectedMatKeys, s.mats k ≠ none) →
      (∀ k ∈ expectedVecKeys, s.vecs k ≠ none) →
      ∃ pp, load_encoder_hparams_and_params s =
        Except.ok (⟨12, 1024⟩, pp) ∧ pp.blocks.length = n_layers) := by
  refine ⟨fun e h => loader_error_names s e h, ?_, ?_⟩
  · intro habs
    cases hres : load_encoder_hparams_and_params s with
    | error e => exact ⟨e, rfl⟩
    | ok p =>
      obtain ⟨hp, pp⟩ := p
      obtain ⟨hmat, hvec, _, _, _⟩ := loader_ok_means s hp pp hres
      rcases habs with ⟨k, hk, hnone⟩ | ⟨k, hk, hnone⟩
      · exact absurd hnone (hmat k hk)
      · exact absurd hnone (hvec k hk)
  · intro hm hv
    exact loader_ok_of s
      (fun k hk => Option.ne_none_iff_exists'.mp (hm k hk))
      (fun k hk => Option.ne_none_iff_exists'.mp (hv k hk))

theorem C9_loader_missing_parameter_witness :
    ("embeddings.word_embeddings.weight" ∈ expectedMatKeys ∧
      (WeightStore.mk (fun _ => none) (fun _ => none)).mats
        ("embeddings.word_embeddings.weight") = none) ∨
    ("embeddings.word_embeddings.weight" ∈ expectedVecKeys ∧
      (WeightStore.mk (fun _ => none) (fun _ => none)).vecs
        ("embeddings.word_embeddings.weight") = none) :=
  (C9_loader_missing_parameter (WeightStore.mk (fun _ => none) (fun _ => none))).1
    ("embeddings.word_embeddings.weight") rfl

/-- C10: the encoder pipeline never validates ids.  A negative row index
`i` with `-len ≤ i < 0` does not fail: it selects the row `len + i` counted
from the end; in particular segment id `-1` on the 2-row segment table
selects row 1, and `bert` computes on segment id `-1` exactly what it
computes on segment id `1`. -/
theorem C10_negative_ids_silent (t : Mat) (i : ℤ) (hneg : i < 0)
    (hrange : 0 ≤ i + (t.length : ℤ)) :
    npIndex t i = t[(i + (t.length : ℤ)).toNat]? ∧
    (npIndex t i).isSome = true ∧
    (∀ r0 r1 : Vec, t = [r0, r1] → npIndex t (-1) = some r1) ∧
    ∀ inputs wte wpe ln_0 blocks pooler n_head r0 r1, t = [r0, r1] →
      bert inputs [-1] wte wpe t ln_0 blocks pooler n_head =
      bert inputs [1] wte wpe t ln_0 blocks pooler n_head := by
  have hj : (if i < 0 then i + (t.length : ℤ) else i) = i + (t.length : ℤ) :=
    if_pos hneg
  have hlt : i + (t.length : ℤ) < (t.length : ℤ) := by omega
  have hcond : 0 ≤ i + (t.length : ℤ) ∧ i + (t.length : ℤ) < (t.length : ℤ) :=
    ⟨hrange, hlt⟩
  have heq : npIndex t i = t[(i + (t.length : ℤ)).toNat]? := by
    unfold npIndex
    rw [hj, if_pos hcond]
  refine ⟨heq, ?_, ?_, ?_⟩
  · rw [heq]
    have : (i + (t.length : ℤ)).toNat < t.length := by omega
    simp [List.getElem?_eq_getElem this]
  · intro r0 r1 ht
    subst ht
    simp [npIndex]
  · intro inputs wte wpe ln_0 blocks pooler n_head r0 r1 ht
    subst ht
    have hse : List.mapM (npIndex ([r0, r1] : Mat)) [(-1 : ℤ)] =
        List.mapM (npIndex ([r0, r1] : Mat)) [(1 : ℤ)] := by
      have h1 : npIndex [r0, r1] (-1) = some r1 := by simp [npIndex]
      have h2 : npIndex [r0, r1] 1 = some r1 := by simp [npIndex]
      simp [List.mapM, List.mapM.loop, h1, h2]
    simp only [bert, hse]

theorem C10_negative_ids_silent_witness :
    npIndex [[(5 : ℝ)], [7]] (-1) =
      [[(5 : ℝ)], [7]][((-1 : ℤ) + (([[(5 : ℝ)], [7]] : Mat).length : ℤ)).toNat]? ∧
    (npIndex [[(5 : ℝ)], [7]] (-1)).isSome = true ∧
    (∀ r0 r1 : Vec, ([[(5 : ℝ)], [7]] : Mat) = [r0, r1] →
      npIndex [[(5 : ℝ)], [7]] (-1) = some r1) ∧
    ∀ inputs wte wpe ln_0 blocks pooler n_head r0 r1,
      ([[(5 : ℝ)], [7]] : Mat) = [r0, r1] →
      bert inputs [-1] wte wpe [[(5 : ℝ)], [7]] ln_0 blocks pooler n_head =
      bert inputs [1] wte wpe [[(5 : ℝ)], [7]] ln_0 blocks pooler n_head :=
  C10_negative_ids_silent [[(5 : ℝ)], [7]] (-1) (by norm_num) (by norm_num)

end BertEmb
